import Mathlib

/-!
# Session registry (`session.go`): shallow embedding

The Go package keeps a registry of sessions: a `container/list` of `*Storage`
in creation order and a map from session id to list element.  Both hold
pointers, and a `Storage` holds a Go map (a reference), so the embedding is an
explicit-state one:

* `Session.objs` is the memory of `Storage` objects; an address is an index
  into it.  Every list element wraps exactly one `*Storage` created by the same
  `Start` call, so one address stands for the element and for its storage.
* `Session.maps` is the memory of Go maps (`map[string]interface{}`); a
  `Storage` refers to its map by index, so two storages can share one map
  exactly as `storage.Values = oldstorage.Values` makes them do.
* `time.Now().Unix()` and the output of `generateID` are inputs of the
  operations that read them; `generateID` itself is a function of its two clock
  readings, with the generator of `math/rand` and SHA-256 as parameters.
* The calls of `Storage.Struct` into `encoding/json` are parameters.
* `int` and `int64` are `Int`; sums the code computes are wrapped to 64 bits.
-/

namespace GoSession

/-! ## Go values, maps and integer helpers -/

/-- A value of type `interface{}` stored in a session: a native `int`, a
`string`, a `bool`, or a value of any other dynamic type, which the code only
ever observes through `fmt.Sprint` and is kept as that rendering. -/
inductive Value where
  | int (n : Int)
  | str (s : String)
  | bool (b : Bool)
  | other (repr : String)
  deriving DecidableEq, Repr

/-- A Go map with string keys, as an association list read from the head. -/
abbrev GoMap (β : Type) := List (String × β)

/-- The lookup `v, ok := m[k]`. -/
def mapGet {β : Type} : GoMap β → String → Option β
  | [], _ => none
  | (k', v) :: m, k => if k' = k then some v else mapGet m k

/-- The builtin `delete(m, k)`. -/
def mapDelete {β : Type} (m : GoMap β) (k : String) : GoMap β :=
  m.filter (fun p => decide (p.1 ≠ k))

/-- The assignment `m[k] = v`. -/
def mapSet {β : Type} (m : GoMap β) (k : String) (v : β) : GoMap β :=
  (k, v) :: mapDelete m k

/-- Two's-complement wrap-around of a 64-bit signed integer. -/
def wrapInt64 (x : Int) : Int := (x + 2 ^ 63) % 2 ^ 64 - 2 ^ 63

/-- The rendering `fmt.Sprint(v)`. -/
def Sprint : Value → String
  | .int n => toString n
  | .str s => s
  | .bool b => if b then "true" else "false"
  | .other r => r

/-- Value of a run of decimal digits. -/
def parseDigits (ds : List Char) : Nat :=
  ds.foldl (fun n c => 10 * n + (c.toNat - '0'.toNat)) 0

/-- The parser `strconv.Atoi`: an optional sign followed by at least one decimal
digit, within the range of `int`; `none` stands for a non-nil error. -/
def Atoi (s : String) : Option Int :=
  let cs := s.toList
  let neg := cs.head? = some '-'
  let ds := if cs.head? = some '-' ∨ cs.head? = some '+' then cs.tail else cs
  if ds = [] ∨ ¬ ds.all Char.isDigit then none
  else
    let n : Int := if neg then - (parseDigits ds : Int) else (parseDigits ds : Int)
    if - 2 ^ 63 ≤ n ∧ n < 2 ^ 63 then some n else none

/-! ## url.QueryEscape -/

/-- The test `shouldEscape(c, encodeQueryComponent)` of `net/url` on an ASCII
byte: letters, digits and `-`, `_`, `.`, `~` are kept. -/
def shouldEscape (c : Char) : Bool :=
  !(c.isAlphanum || c == '-' || c == '_' || c == '.' || c == '~')

/-- Upper-case hexadecimal digit of a number below 16. -/
def upperhex (n : Nat) : Char :=
  "0123456789ABCDEF".toList.getD n '0'

/-- Escape of one character: a space becomes `+`, a kept ASCII byte is itself,
and every other byte of the UTF-8 encoding becomes `%XX`. -/
def escapeChar (c : Char) : List Char :=
  if c = ' ' then ['+']
  else if c.toNat < 128 ∧ shouldEscape c = false then [c]
  else (String.utf8EncodeChar c).flatMap
    (fun b => ['%', upperhex (b.toNat / 16), upperhex (b.toNat % 16)])

/-- The function `url.QueryEscape`. -/
def QueryEscape (s : String) : String :=
  String.mk (s.toList.flatMap escapeChar)

/-! ## Data model -/

/-- The struct `Storage`; `Values` is the reference of its Go map. -/
structure Storage where
  Access : Int
  ssid : String
  Values : Nat
  deriving DecidableEq, Repr, Inhabited

/-- The fields of `http.Cookie` the package sets: the value handed to
`http.SetCookie`, which decides what is written (`SetCookie`). -/
structure Cookie where
  Name : String
  Value : String
  Path : String
  HttpOnly : Bool
  Secure : Bool
  MaxAge : Int
  Expires : Option Int
  deriving DecidableEq, Repr

/-- The cookies of an `http.Request`, as (name, value) pairs. -/
structure Request where
  cookies : List (String × String)
  deriving DecidableEq, Repr

/-- The method `r.Cookie(name)`: the value of the first cookie of that name,
`none` standing for `http.ErrNoCookie`. -/
def Request.Cookie (r : Request) (name : String) : Option String :=
  (r.cookies.find? (fun c => decide (c.1 = name))).map Prod.snd

/-- The struct `Session` together with the memory its pointers refer to:
`list` holds the addresses of the list elements from front to back, `data`
maps a session id to an address, `objs` is the memory of `Storage` objects
and `maps` the memory of Go maps. -/
structure Session where
  name : String
  maxage : Int
  keeptime : Int
  path : String
  secure : Bool
  list : List Nat
  data : GoMap Nat
  objs : List Storage
  maps : List (GoMap Value)
  deriving DecidableEq, Repr

/-- Dereference of a `*Storage`. -/
def Session.storage (s : Session) (p : Nat) : Storage :=
  (s.objs[p]?).getD default

/-- The Go map a `*Storage` refers to. -/
def Session.values (s : Session) (p : Nat) : GoMap Value :=
  (s.maps[(s.storage p).Values]?).getD []

/-! ## http.SetCookie -/

/-- The test `httpguts.IsTokenRune`: an ASCII letter or digit or one of
`! # $ % & ' * + - . ^ _ | ~` and the backquote. -/
def isTokenRune (c : Char) : Bool :=
  c.isAlphanum || "!#$%&*+-.^_|~".toList.contains c || c.toNat == 39 || c.toNat == 96

/-- The test `isCookieNameValid` of `net/http`: not empty, token characters
only. -/
def isCookieNameValid (raw : String) : Bool :=
  raw ≠ "" && raw.toList.all isTokenRune

/-- The test `validCookieValueByte` of `net/http` (a character outside ASCII is
made of bytes that all fail it): printable ASCII other than the double quote,
the semicolon and the backslash. -/
def validCookieValueByte (c : Char) : Bool :=
  decide (32 ≤ c.toNat) && decide (c.toNat < 127) && c.toNat != 34 && c.toNat != 59
    && c.toNat != 92

/-- The test `validCookiePathByte` of `net/http`: printable ASCII other than the
semicolon. -/
def validCookiePathByte (c : Char) : Bool :=
  decide (32 ≤ c.toNat) && decide (c.toNat < 127) && c.toNat != 59

/-- The function `sanitizeCookieValue` of `net/http` for a cookie that is not
marked `Quoted`: invalid bytes are dropped, and what is left is put in double
quotes when it holds a space or a comma. -/
def sanitizeCookieValue (v : String) : String :=
  let w := v.toList.filter validCookieValueByte
  if w = [] then ""
  else if w.contains ' ' || w.contains ',' then String.mk (Char.ofNat 34 :: w ++ [Char.ofNat 34])
  else String.mk w

/-- The function `sanitizeCookiePath` of `net/http`: invalid bytes are dropped. -/
def sanitizeCookiePath (v : String) : String :=
  String.mk (v.toList.filter validCookiePathByte)

/-- A `Set-Cookie` header as `Cookie.String` of `net/http` serialises it, by
attribute: `Path`, `Expires` and `MaxAge` are `none` when the attribute is left
out. -/
structure SetCookieHeader where
  Name : String
  Value : String
  Path : Option String
  Expires : Option Int
  MaxAge : Option Int
  HttpOnly : Bool
  Secure : Bool
  deriving DecidableEq, Repr

/-- The function `http.SetCookie` on the fields the package sets: the header it
adds to the response, or `none` when it adds nothing. A cookie whose name is not
valid is dropped; `Path` is written when not empty; `Expires` is written for a
time from the year 1601 on (Unix time -11644473600); a positive `MaxAge` is
written as it is, a negative one as `Max-Age=0`, and 0 writes no `Max-Age`. -/
def SetCookie (c : Cookie) : Option SetCookieHeader :=
  if isCookieNameValid c.Name then
    some
      { Name := c.Name
        Value := sanitizeCookieValue c.Value
        Path := if c.Path = "" then none else some (sanitizeCookiePath c.Path)
        Expires := c.Expires.filter (fun t => decide (-11644473600 ≤ t))
        MaxAge := if 0 < c.MaxAge then some c.MaxAge
                  else if c.MaxAge < 0 then some 0 else none
        HttpOnly := c.HttpOnly
        Secure := c.Secure }
  else none

/-! ## Storage methods (through a `*Storage` handle `p`) -/

/-- The method `Storage.SessionID`. -/
def Storage.SessionID (s : Session) (p : Nat) : String :=
  (s.storage p).ssid

/-- The method `Storage.Get`: the value and the error. -/
def Storage.Get (s : Session) (p : Nat) (key : String) : Option Value × Option String :=
  match mapGet (s.values p) key with
  | none => (none, some ("'" ++ key ++ "' - not found"))
  | some v => (some v, none)

/-- The method `Storage.Int`. -/
def Storage.Int (s : Session) (p : Nat) (key : String) : Int × Option String :=
  match Storage.Get s p key with
  | (_, some err) => (0, some err)
  | (some (.int n), none) => (n, none)
  | (some v, none) =>
    match Atoi (Sprint v) with
    | none => (0, some ("'" ++ key ++ "' - not number"))
    | some n => (n, none)
  | (none, none) => (0, some ("'" ++ key ++ "' - not number"))

/-- The method `Storage.Str`. -/
def Storage.Str (s : Session) (p : Nat) (key : String) : String × Option String :=
  match Storage.Get s p key with
  | (_, some err) => ("", some err)
  | (some v, none) => (Sprint v, none)
  | (none, none) => ("<nil>", none)

/-- The method `Storage.Bool`. -/
def Storage.Bool (s : Session) (p : Nat) (key : String) : Bool × Option String :=
  match Storage.Get s p key with
  | (_, some err) => (false, some err)
  | (some (.bool b), none) => (b, none)
  | (_, none) => (false, some ("'" ++ key ++ "' - not boolean"))

/-- The method `Storage.Set`: a write into the map the storage refers to. -/
def Storage.Set (s : Session) (p : Nat) (key : String) (value : Value) : Session :=
  { s with maps := s.maps.set (s.storage p).Values (mapSet (s.values p) key value) }

/-- The method `Storage.Delete`. -/
def Storage.Delete (s : Session) (p : Nat) (key : String) : Session :=
  match mapGet (s.values p) key with
  | some _ =>
    { s with maps := s.maps.set (s.storage p).Values (mapDelete (s.values p) key) }
  | none => s

/-- The method `Storage.Struct` with destination `i`: the destination
afterwards and the error. The two calls into `encoding/json` are parameters:
`marshal v` is the output of `json.Marshal(v)` (`none` for an error) and
`unmarshal buf i` the destination after `json.Unmarshal(buf, i)` with the error
it returned. -/
def Storage.Struct {δ : Type} (marshal : Value → Option String)
    (unmarshal : String → δ → δ × Option String) (s : Session) (p : Nat) (key : String)
    (i : δ) :
    δ × Option String :=
  match Storage.Get s p key with
  | (_, some err) => (i, some err)
  | (some v, none) =>
    match marshal v with
    | none => (i, some ("'" ++ key ++ "' - not struct"))
    | some buf =>
      if (unmarshal buf i).2 = none then ((unmarshal buf i).1, none)
      else ((unmarshal buf i).1, some ("'" ++ key ++ "' - not struct"))
  | (none, none) => (i, some ("'" ++ key ++ "' - not struct"))

/-! ## Registry operations -/

/-- The constructor `New`: the registry it builds (the goroutine it starts on
the ticker is the `sweep` step of a run; the ticker itself is `tickerInterval`). -/
def New (name : String) (maxage keep : Int) (secure : Bool) : Session :=
  { name := if name = "" then "noname" else name
    maxage := maxage
    keeptime := if keep ≤ 0 then 60 else keep
    path := "/"
    secure := secure
    list := []
    data := []
    objs := []
    maps := [] }

/-- The argument `time.Duration(session.keeptime) * time.Second` of
`time.NewTicker` in `New`: a 64-bit product, in nanoseconds. -/
def tickerInterval (s : Session) : Int :=
  wrapInt64 (s.keeptime * 1000000000)

/-- Whether `New` returns its registry: `time.NewTicker` panics on an interval
that is not positive. -/
def NewReturns (name : String) (maxage keep : Int) (secure : Bool) : Prop :=
  0 < tickerInterval (New name maxage keep secure)

instance (name : String) (maxage keep : Int) (secure : Bool) :
    Decidable (NewReturns name maxage keep secure) := by
  unfold NewReturns
  infer_instance

/-- The method `Session.generateID`. Its two clock readings are inputs:
`seed` is the `time.Now().UnixNano()` given to `random.Seed` and `stamp` the one
appended to the random string. The library functions are parameters:
`randomString seed` is the 64 characters drawn from `math/rand` after
`random.Seed(seed)`, and `sha256hex` the upper-case hexadecimal SHA-256 digest
(`fmt.Sprintf("%X", hash.Sum(nil))`). -/
def generateID (randomString : Int → String) (sha256hex : String → String)
    (seed stamp : Int) : String :=
  sha256hex (randomString seed ++ toString stamp)

/-- The element `session.data[cookie.Value]` that `Start` supersedes, if any:
the request has the session cookie, its value is not empty and is a key of
`data`. -/
def Session.lookup (s : Session) (r : Request) : Option Nat :=
  match r.Cookie s.name with
  | none => none
  | some v => if v = "" then none else mapGet s.data v

/-- The method `Session.Start` at time `now`, with `ssid` the output of
`generateID`: the state afterwards, the returned `*Storage` and the
`http.Cookie` it passes to `http.SetCookie`; the header that call adds to the
response is `SetCookie` of it. -/
def Start (s : Session) (now : Int) (ssid : String) (r : Request) :
    Session × Nat × Cookie :=
  let p := s.objs.length
  let m := s.maps.length
  let storage : Storage := { Access := now, ssid := ssid, Values := m }
  let cookie : Cookie :=
    { Name := s.name, Value := QueryEscape ssid, Path := "/", HttpOnly := true,
      Secure := s.secure, MaxAge := s.maxage, Expires := none }
  match s.lookup r with
  | some a =>
    let oldstorage := s.storage a
    ({ s with
        list := s.list ++ [p]
        data := mapSet s.data ssid p
        objs := s.objs.set a { oldstorage with Access := 0 }
                  ++ [{ storage with Values := oldstorage.Values }]
        maps := s.maps ++ [[]] }, p, cookie)
  | none =>
    ({ s with
        list := s.list ++ [p]
        data := mapSet s.data ssid p
        objs := s.objs ++ [storage]
        maps := s.maps ++ [[]] }, p, cookie)

/-- The method `Session.Destroy` at time `now`: the state afterwards and the
`http.Cookie` it passes to `http.SetCookie`, if it makes that call. -/
def Destroy (s : Session) (now : Int) (r : Request) : Session × Option Cookie :=
  match r.Cookie s.name with
  | none => (s, none)
  | some v =>
    if v = "" then (s, none)
    else
      let cookie : Cookie :=
        { Name := s.name, Value := "", Path := "/", HttpOnly := true,
          Secure := s.secure, MaxAge := -1, Expires := some now }
      match mapGet s.data v with
      | some a => ({ s with data := mapDelete s.data v, list := s.list.erase a }, some cookie)
      | none => (s, some cookie)

/-- The value `storage.Access + int64(session.maxage)` of `inspection`. -/
def accesstime (s : Session) (p : Nat) : Int :=
  wrapInt64 ((s.storage p).Access + s.maxage)

/-- The loop of `inspection` on the list and the id map: while the front
element fails `accesstime >= now`, its id is deleted from the map and the
element is removed, which leaves the rest of the list. -/
def inspectionLoop (s : Session) (now : Int) : List Nat → GoMap Nat → List Nat × GoMap Nat
  | [], d => ([], d)
  | elem :: rest, d =>
    if accesstime s elem < now then
      inspectionLoop s now rest (mapDelete d (s.storage elem).ssid)
    else (elem :: rest, d)

/-- The method `Session.inspection` (one sweep pass); `now` is the reading of
`time.Now().Unix()`, the same in every iteration of the pass. -/
def inspection (s : Session) (now : Int) : Session :=
  { s with
      list := (inspectionLoop s now s.list s.data).1
      data := (inspectionLoop s now s.list s.data).2 }

/-! ## Runs of the registry -/

/-- One step of the registry's life: a request served by `Start` or by
`Destroy`, a tick of the sweep goroutine, or a handler writing through the
`*Storage` it was given. -/
inductive Step where
  | start (now : Int) (ssid : String) (r : Request)
  | destroy (now : Int) (r : Request)
  | sweep (now : Int)
  | set (p : Nat) (key : String) (value : Value)
  | delete (p : Nat) (key : String)
  deriving DecidableEq, Repr

/-- The state after one step. -/
def step (s : Session) : Step → Session
  | .start now ssid r => (Start s now ssid r).1
  | .destroy now r => (Destroy s now r).1
  | .sweep now => inspection s now
  | .set p key value => Storage.Set s p key value
  | .delete p key => Storage.Delete s p key

/-- The state after a sequence of steps. -/
def run (s : Session) (steps : List Step) : Session :=
  steps.foldl step s

/-- The clock reading a step takes, if it takes one. -/
def Step.time : Step → Option Int
  | .start now _ _ => some now
  | .destroy now _ => some now
  | .sweep now => some now
  | .set _ _ _ => none
  | .delete _ _ => none

/-- The clock readings of a sequence of steps, in order. -/
def clock (steps : List Step) : List Int :=
  steps.filterMap Step.time

/-- The `Access` fields along the ordered list, head to tail. -/
def accessList (s : Session) : List Int :=
  s.list.map (fun a => (s.storage a).Access)

/-- The `Access` fields along the ordered list, without those equal to 0 (the
value rotation gives a superseded entry). -/
def liveAccessList (s : Session) : List Int :=
  (accessList s).filter (fun x => decide (x ≠ 0))

/-- The session ids along the ordered list, head to tail. -/
def idList (s : Session) : List String :=
  s.list.map (fun a => (s.storage a).ssid)

/-- Pointer well-formedness of a registry: no element is linked twice, every
linked element is allocated, and every binding of the id map points to a
linked element whose storage carries that id. -/
def Session.WF (s : Session) : Prop :=
  s.list.Nodup ∧ (∀ a ∈ s.list, a < s.objs.length) ∧
    ∀ kv ∈ s.data, kv.2 ∈ s.list ∧ (s.storage kv.2).ssid = kv.1

instance (s : Session) : Decidable s.WF := by
  unfold Session.WF
  infer_instance

/-- The order invariant of the list at clock reading `t`: the registry is
well-formed and the `Access` fields that were not reset are non-decreasing
from head to tail and not later than `t`. -/
def Session.ordered (s : Session) (t : Int) : Prop :=
  s.WF ∧ (liveAccessList s).Pairwise (· ≤ ·) ∧ ∀ x ∈ liveAccessList s, x ≤ t

/-- The keys of the id map. -/
def keyList (s : Session) : List String :=
  s.data.map Prod.fst

/-- The ids `generateID` returned to the `Start` steps of a run, in order. -/
def issued : List Step → List String
  | [] => []
  | .start _ ssid _ :: steps => ssid :: issued steps
  | _ :: steps => issued steps

/-- Every id the generator produces along a run is different from all ids in
the registry at that moment. -/
def freshRun (s : Session) : List Step → Prop
  | [] => True
  | .start now ssid r :: steps =>
    ssid ∉ idList s ∧ freshRun (step s (.start now ssid r)) steps
  | st :: steps => freshRun (step s st) steps

/-- Whether a run is fresh can be computed. -/
def freshRunDec : (steps : List Step) → (s : Session) → Decidable (freshRun s steps)
  | [], _ => isTrue trivial
  | .start now ssid r :: steps, s =>
    match (inferInstance : Decidable (ssid ∉ idList s)),
        freshRunDec steps (step s (.start now ssid r)) with
    | isTrue h1, isTrue h2 => isTrue ⟨h1, h2⟩
    | isFalse h1, _ => isFalse (fun h => h1 h.1)
    | _, isFalse h2 => isFalse (fun h => h2 h.2)
  | .destroy now r :: steps, s => freshRunDec steps (step s (.destroy now r))
  | .sweep now :: steps, s => freshRunDec steps (step s (.sweep now))
  | .set p key value :: steps, s => freshRunDec steps (step s (.set p key value))
  | .delete p key :: steps, s => freshRunDec steps (step s (.delete p key))

instance (s : Session) (steps : List Step) : Decidable (freshRun s steps) :=
  freshRunDec steps s

/-- Map/list consistency of a registry: it is well-formed, no two list entries
share an id, no key occurs twice, and the id of every list entry is a key bound
to that entry. -/
def Session.consistent (s : Session) : Prop :=
  s.WF ∧ (idList s).Nodup ∧ (keyList s).Nodup ∧
    ∀ a ∈ s.list, mapGet s.data (s.storage a).ssid = some a

instance (s : Session) : Decidable s.consistent := by
  unfold Session.consistent
  infer_instance

/-- Every storage refers to an allocated Go map (`Start` makes the map before
it makes the storage). -/
def Session.allocated (s : Session) : Prop :=
  ∀ st ∈ s.objs, st.Values < s.maps.length

instance (s : Session) : Decidable s.allocated := by
  unfold Session.allocated
  infer_instance

/-- The strings `generateID` can return: `fmt.Sprintf("%X", hash.Sum(nil))` of
a SHA-256 sum, that is 64 upper-case hexadecimal digits. -/
def isSessionID (id : String) : Prop :=
  id.length = 64 ∧ ∀ c ∈ id.toList, c ∈ "0123456789ABCDEF".toList

instance (id : String) : Decidable (isSessionID id) := by
  unfold isSessionID
  infer_instance

/-! ## The visit counter of the test handler -/

/-- The handler of `Test__SESSION_NEW` after `Start`:
`n, _ := sess.Int("INT"); sess.Set("INT", n+1)`; returns the value `n+1`. -/
def handler (s : Session) (p : Nat) : Session × Int :=
  let n := (Storage.Int s p "INT").1
  (Storage.Set s p "INT" (.int (wrapInt64 (n + 1))), wrapInt64 (n + 1))

/-- One request of a client: the sweep passes that ran since its previous
request (by their times), then the time of the request and the id
`generateID` returns while serving it. -/
structure Visit where
  sweeps : List Int
  now : Int
  ssid : String
  deriving DecidableEq, Repr

/-- The state when the request of a visit arrives. -/
def Visit.arrive (s : Session) (v : Visit) : Session :=
  v.sweeps.foldl inspection s

/-- Serving one visit whose request is `r`: the state afterwards, the value of
the cookie `Start` passed to `http.SetCookie` (written unchanged, see
`sanitizeCookieValue_QueryEscape`) and the value `n+1` the handler computed. -/
def visit (s : Session) (r : Request) (v : Visit) : Session × String × Int :=
  let res := Start (v.arrive s) v.now v.ssid r
  let h := handler res.1 res.2.1
  (h.1, res.2.2.Value, h.2)

/-- Later visits of a client that presents each time the cookie written by the
previous `Start`; `cookie` and `n` are those of the previous visit. -/
def visits (s : Session) (cookie : String) (n : Int) : List Visit → Session × String × Int
  | [] => (s, cookie, n)
  | v :: vs =>
    let res := visit s ⟨[(s.name, cookie)]⟩ v
    visits res.1 res.2.1 res.2.2 vs

/-- No eviction of the current entry in between: when each request of the
chain arrives, the cookie it carries is still a key of the id map. -/
def survives (s : Session) (cookie : String) : List Visit → Prop
  | [] => True
  | v :: vs =>
    mapGet (v.arrive s).data cookie ≠ none ∧
      survives (visit s ⟨[(s.name, cookie)]⟩ v).1 (visit s ⟨[(s.name, cookie)]⟩ v).2.1 vs

/-- Whether a chain survives can be computed. -/
def survivesDec : (vs : List Visit) → (s : Session) → (cookie : String) →
    Decidable (survives s cookie vs)
  | [], _, _ => isTrue trivial
  | v :: vs, s, cookie =>
    match (inferInstance : Decidable (mapGet (v.arrive s).data cookie ≠ none)),
        survivesDec vs (visit s ⟨[(s.name, cookie)]⟩ v).1
          (visit s ⟨[(s.name, cookie)]⟩ v).2.1 with
    | isTrue h1, isTrue h2 => isTrue ⟨h1, h2⟩
    | isFalse h1, _ => isFalse (fun h => h1 h.1)
    | _, isFalse h2 => isFalse (fun h => h2 h.2)

instance (s : Session) (cookie : String) (vs : List Visit) :
    Decidable (survives s cookie vs) :=
  survivesDec vs s cookie

/-- The requests of one client, `k = vs.length + 1` of them: the first request
`r0` is served as the visit `v0`, every later request carries the cookie the
previous `Start` wrote. The result holds the value `n+1` of the last handler. -/
def chain (s : Session) (r0 : Request) (v0 : Visit) (vs : List Visit) :
    Session × String × Int :=
  visits (visit s r0 v0).1 (visit s r0 v0).2.1 (visit s r0 v0).2.2 vs

/-- The current entry counts `n` visits: the cookie value is not empty and
leads, through the id map, to a storage whose map is allocated and holds
`INT = n`. -/
def counted (s : Session) (cookie : String) (n : Int) : Prop :=
  cookie ≠ "" ∧ ∃ p, mapGet s.data cookie = some p ∧
    (s.storage p).Values < s.maps.length ∧ mapGet (s.values p) "INT" = some (.int n)

/-! ## Concrete registries used as examples -/

/-- A session id of the shape `generateID` returns. -/
def idA : String := "A3F1C2D4E5B60718293A4B5C6D7E8F90A1B2C3D4E5F60718293A4B5C6D7E8F90"

/-- A second session id. -/
def idB : String := "B7E2D3C4F5A6172839404B5C6D7E8F9A0B1C2D3E4F5061728394A5B6C7D8E9F0"

/-- A third session id. -/
def idC : String := "C0FFEE0123456789ABCDEF0123456789ABCDEF0123456789ABCDEF0123456789"

/-- A request carrying the session cookie of a registry made by `New ""`. -/
def withCookie (value : String) : Request := ⟨[("noname", value)]⟩

/-- A request without cookies. -/
def noCookie : Request := ⟨[]⟩

/-- A registry with one session, whose handler stored `INT = 3`. -/
def visited : Session :=
  run (New "" 2 1 false) [.start 1700000000 idA noCookie, .set 0 "INT" (.int 3)]

/-- The registry `visited` after a `Start` that presented the token `idA`. -/
def rotated : Session :=
  (Start visited 1700000001 idB (withCookie idA)).1

/-- A registry with the sessions of two clients, created in the same second. -/
def twoClients : Session :=
  run (New "" 1000 60 false)
    [.start 1700000000 idA noCookie, .start 1700000000 idB noCookie]

/-- The registry `twoClients` after the second client came back with its
token `idB`. -/
def twoClientsRotated : Session :=
  (Start twoClients 1700000001 idC (withCookie idB)).1

/-- A registry configured with the largest max-age an `int` holds, with one
session. -/
def neverExpire : Session :=
  run (New "" 9223372036854775807 60 false) [.start 1700000000 idA noCookie]

/-- A registry whose max-age is so large that the deadline of its first session
fits in 64 bits and the deadline of its second session does not. -/
def straddling : Session :=
  run (New "" 9223372035154775757 60 false)
    [.start 1700000000 idA noCookie, .start 1700000100 idB noCookie]

/-- The memory of `Test__STORAGE_*`: one storage
`&Storage{ssid: "SSID", Values: make(map[string]interface{})}` at address 0. -/
def loneStorage : Session :=
  { name := "noname", maxage := 0, keeptime := 60, path := "/", secure := false,
    list := [], data := [], objs := [{ Access := 0, ssid := "SSID", Values := 0 }],
    maps := [[]] }

/-- The first of two `Start` calls in a fresh registry whose `generateID` reads
the same clock value (1700000000 s, in nanoseconds) for the seed and for the
stamp. -/
def firstStart (randomString : Int → String) (sha256hex : String → String) :
    Session × Nat × Cookie :=
  Start (New "" 2 1 false) 1700000000
    (generateID randomString sha256hex 1700000000000000000 1700000000000000000) noCookie

/-- The second of the two calls, whose `generateID` reads the same clock value
again. -/
def secondStart (randomString : Int → String) (sha256hex : String → String) :
    Session × Nat × Cookie :=
  Start (firstStart randomString sha256hex).1 1700000000
    (generateID randomString sha256hex 1700000000000000000 1700000000000000000) noCookie

/-- A run with a rotation, a sweep pass that evicts the superseded entry, a
second client and its logout. -/
def busyRun : List Step :=
  [.start 1700000000 idA noCookie, .start 1700000001 idB (withCookie idA),
    .sweep 1700000003, .start 1700000004 idC noCookie,
    .destroy 1700000005 (withCookie idC)]

/-! ## Lemmas on Go maps and on the two memories -/

theorem mapGet_cons {β : Type} (k₀ : String) (v : β) (m : GoMap β) (k : String) :
    mapGet ((k₀, v) :: m) k = if k₀ = k then some v else mapGet m k := rfl

theorem mapDelete_cons {β : Type} (k₀ : String) (v : β) (m : GoMap β) (k : String) :
    mapDelete ((k₀, v) :: m) k
      = if k₀ = k then mapDelete m k else (k₀, v) :: mapDelete m k := by
  by_cases h : k₀ = k <;> simp [mapDelete, h]

theorem mapGet_mapDelete_self {β : Type} (m : GoMap β) (k : String) :
    mapGet (mapDelete m k) k = none := by
  induction m with
  | nil => rfl
  | cons p m ih =>
    obtain ⟨k', v⟩ := p
    rw [mapDelete_cons]
    by_cases h : k' = k
    · rw [if_pos h]; exact ih
    · rw [if_neg h, mapGet_cons, if_neg h]; exact ih

theorem mapGet_mapDelete_ne {β : Type} (m : GoMap β) (k k' : String) (hne : k' ≠ k) :
    mapGet (mapDelete m k) k' = mapGet m k' := by
  induction m with
  | nil => rfl
  | cons p m ih =>
    obtain ⟨k₀, v⟩ := p
    rw [mapDelete_cons]
    by_cases h : k₀ = k
    · have h' : k₀ ≠ k' := fun e => hne (e ▸ h)
      rw [if_pos h, mapGet_cons, if_neg h']; exact ih
    · rw [if_neg h, mapGet_cons, mapGet_cons]
      by_cases h2 : k₀ = k'
      · rw [if_pos h2, if_pos h2]
      · rw [if_neg h2, if_neg h2]; exact ih

theorem mapGet_mapSet_self {β : Type} (m : GoMap β) (k : String) (v : β) :
    mapGet (mapSet m k v) k = some v := by
  simp [mapSet, mapGet]

theorem mapGet_mapSet_ne {β : Type} (m : GoMap β) (k k' : String) (v : β) (hne : k' ≠ k) :
    mapGet (mapSet m k v) k' = mapGet m k' := by
  have h : k ≠ k' := fun e => hne e.symm
  rw [mapSet, mapGet_cons, if_neg h, mapGet_mapDelete_ne m k k' hne]

theorem mapDelete_of_mapGet_none {β : Type} (m : GoMap β) (k : String)
    (h : mapGet m k = none) : mapDelete m k = m := by
  induction m with
  | nil => rfl
  | cons p m ih =>
    obtain ⟨k', v⟩ := p
    rw [mapGet_cons] at h
    by_cases hk : k' = k
    · rw [if_pos hk] at h; cases h
    · rw [if_neg hk] at h
      rw [mapDelete_cons, if_neg hk, ih h]

/-- A delete can only turn a binding into an absent key. -/
theorem mapGet_mapDelete_some {β : Type} (m : GoMap β) (k k' : String) (v : β)
    (h : mapGet (mapDelete m k) k' = some v) : mapGet m k' = some v ∧ k' ≠ k := by
  by_cases hk : k' = k
  · subst hk
    simp [mapGet_mapDelete_self] at h
  · exact ⟨by rwa [mapGet_mapDelete_ne m k k' hk] at h, hk⟩

/-- Allocating a fresh empty Go map changes the contents of no reference. -/
theorem maps_alloc_read (maps : List (GoMap Value)) (i : Nat) :
    ((maps ++ [[]])[i]?).getD [] = (maps[i]?).getD [] := by
  rcases Nat.lt_trichotomy i maps.length with h | h | h
  · rw [List.getElem?_append_left h]
  · subst h
    simp
  · rw [List.getElem?_eq_none (by simp; omega), List.getElem?_eq_none (by omega)]

/-! ## Field-by-field description of `Start` -/

theorem lookup_eq_of_cookie (s : Session) (r : Request) (v : String)
    (hc : r.Cookie s.name = some v) (hv : v ≠ "") : s.lookup r = mapGet s.data v := by
  simp [Session.lookup, hc, hv]

theorem Start_handle (s : Session) (now : Int) (ssid : String) (r : Request) :
    (Start s now ssid r).2.1 = s.objs.length := by
  cases h : s.lookup r <;> simp [Start, h]

theorem Start_name (s : Session) (now : Int) (ssid : String) (r : Request) :
    (Start s now ssid r).1.name = s.name := by
  cases h : s.lookup r <;> simp [Start, h]

theorem Start_maxage (s : Session) (now : Int) (ssid : String) (r : Request) :
    (Start s now ssid r).1.maxage = s.maxage := by
  cases h : s.lookup r <;> simp [Start, h]

theorem Start_list (s : Session) (now : Int) (ssid : String) (r : Request) :
    (Start s now ssid r).1.list = s.list ++ [s.objs.length] := by
  cases h : s.lookup r <;> simp [Start, h]

theorem Start_data (s : Session) (now : Int) (ssid : String) (r : Request) :
    (Start s now ssid r).1.data = mapSet s.data ssid s.objs.length := by
  cases h : s.lookup r <;> simp [Start, h]

theorem Start_maps (s : Session) (now : Int) (ssid : String) (r : Request) :
    (Start s now ssid r).1.maps = s.maps ++ [[]] := by
  cases h : s.lookup r <;> simp [Start, h]

theorem Start_objs_length (s : Session) (now : Int) (ssid : String) (r : Request) :
    (Start s now ssid r).1.objs.length = s.objs.length + 1 := by
  cases h : s.lookup r <;> simp [Start, h]

theorem Start_objs_of_none (s : Session) (now : Int) (ssid : String) (r : Request)
    (h : s.lookup r = none) :
    (Start s now ssid r).1.objs
      = s.objs ++ [{ Access := now, ssid := ssid, Values := s.maps.length }] := by
  simp [Start, h]

theorem Start_objs_of_some (s : Session) (now : Int) (ssid : String) (r : Request) (a : Nat)
    (h : s.lookup r = some a) :
    (Start s now ssid r).1.objs
      = s.objs.set a { s.storage a with Access := 0 }
          ++ [{ Access := now, ssid := ssid, Values := (s.storage a).Values }] := by
  simp [Start, h]

/-- The new storage: created at `now` under the generated id. -/
theorem Start_storage_new (s : Session) (now : Int) (ssid : String) (r : Request) :
    ((Start s now ssid r).1.storage s.objs.length).Access = now ∧
    ((Start s now ssid r).1.storage s.objs.length).ssid = ssid := by
  cases h : s.lookup r <;> simp [Start, h, Session.storage]

/-- The storages that existed before keep their id and their map; only the
`Access` of the superseded one changes, to 0. -/
theorem Start_storage_old (s : Session) (now : Int) (ssid : String) (r : Request) (b : Nat)
    (hb : b < s.objs.length) :
    (Start s now ssid r).1.storage b
      = if s.lookup r = some b then { s.storage b with Access := 0 } else s.storage b := by
  cases h : s.lookup r with
  | none => simp [Start, h, Session.storage, List.getElem?_append_left hb]
  | some a =>
    have hlen : b < (s.objs.set a { s.storage a with Access := 0 }).length := by simpa using hb
    rw [Session.storage, Start_objs_of_some s now ssid r a h, List.getElem?_append_left hlen]
    by_cases hab : a = b
    · subst hab
      simp [List.getElem?_set, hb]
    · have hab' : ¬ (some a = some b) := fun e => hab (Option.some.inj e)
      rw [List.getElem?_set_ne hab, if_neg hab']
      rfl

/-- After a rotation the presented token still leads, through the id map, to a
storage holding the reference of the old map. -/
theorem Start_keeps_token (s : Session) (now : Int) (ssid : String) (r : Request)
    (v : String) (a : Nat) (hc : r.Cookie s.name = some v) (hv : v ≠ "")
    (hg : mapGet s.data v = some a) :
    ∃ a', mapGet (Start s now ssid r).1.data v = some a' ∧
      ((Start s now ssid r).1.storage a').Values = (s.storage a).Values := by
  have hl : s.lookup r = some a := by rw [lookup_eq_of_cookie s r v hc hv, hg]
  have hnew : ((Start s now ssid r).1.storage s.objs.length).Values = (s.storage a).Values := by
    simp [Start, hl, Session.storage]
  rw [Start_data]
  by_cases hid : v = ssid
  · subst hid
    exact ⟨s.objs.length, mapGet_mapSet_self _ _ _, hnew⟩
  · refine ⟨a, by rw [mapGet_mapSet_ne _ _ _ _ hid, hg], ?_⟩
    rcases Nat.lt_trichotomy a s.objs.length with h | h | h
    · rw [Start_storage_old s now ssid r a h, if_pos hl]
    · rw [h]; rw [h] at hnew; exact hnew
    · have h1 : (Start s now ssid r).1.objs.length ≤ a := by
        rw [Start_objs_length]; omega
      simp [Session.storage, List.getElem?_eq_none h1, List.getElem?_eq_none (le_of_lt h)]

/-- The map reference of the storage `Start` returns when an entry is found. -/
theorem Start_returned_ref (s : Session) (now : Int) (ssid : String) (r : Request) (a : Nat)
    (hl : s.lookup r = some a) :
    ((Start s now ssid r).1.storage (Start s now ssid r).2.1).Values
      = (s.storage a).Values := by
  simp [Start, hl, Session.storage]

/-- The map of the storage `Start` returns: the one of the entry found, or a
fresh empty one. -/
theorem Start_returned_values (s : Session) (now : Int) (ssid : String) (r : Request) :
    (Start s now ssid r).1.values (Start s now ssid r).2.1
      = match s.lookup r with
        | some a => s.values a
        | none => [] := by
  cases hl : s.lookup r with
  | none => simp [Start, hl, Session.values, Session.storage]
  | some a =>
    have hobj : ((Start s now ssid r).1.storage (Start s now ssid r).2.1).Values
        = (s.storage a).Values := by
      simp [Start, hl, Session.storage]
    unfold Session.values
    rw [hobj, Start_maps]
    exact maps_alloc_read s.maps _

/-! ## The sweep loop -/

theorem inspectionLoop_congr (s₁ s₂ : Session) (now : Int) (hobjs : s₁.objs = s₂.objs)
    (hmax : s₁.maxage = s₂.maxage) (l : List Nat) (d : GoMap Nat) :
    inspectionLoop s₁ now l d = inspectionLoop s₂ now l d := by
  have hst : ∀ a, s₁.storage a = s₂.storage a := fun a => by simp [Session.storage, hobjs]
  have hacc : ∀ a, accesstime s₁ a = accesstime s₂ a := fun a => by
    simp [accesstime, hst, hmax]
  induction l generalizing d with
  | nil => rfl
  | cons a l ih => simp only [inspectionLoop, hacc, hst, ih]

theorem inspectionLoop_list (s : Session) (now : Int) (l : List Nat) (d : GoMap Nat) :
    (inspectionLoop s now l d).1 = l.dropWhile (fun a => decide (accesstime s a < now)) := by
  induction l generalizing d with
  | nil => rfl
  | cons a l ih =>
    by_cases h : accesstime s a < now
    · simp only [inspectionLoop, if_pos h, ih]
      simp [List.dropWhile, h]
    · simp only [inspectionLoop, if_neg h]
      simp [List.dropWhile, h]

theorem inspectionLoop_data (s : Session) (now : Int) (l : List Nat) (d : GoMap Nat) :
    (inspectionLoop s now l d).2
      = (l.takeWhile (fun a => decide (accesstime s a < now))).foldl
          (fun d a => mapDelete d (s.storage a).ssid) d := by
  induction l generalizing d with
  | nil => rfl
  | cons a l ih =>
    by_cases h : accesstime s a < now
    · simp only [inspectionLoop, if_pos h, ih]
      simp [List.takeWhile, h]
    · simp only [inspectionLoop, if_neg h]
      simp [List.takeWhile, h]

/-- The loop stops at once on an empty list or an unexpired head. -/
theorem inspectionLoop_fixed (s : Session) (now : Int) (l : List Nat) (d : GoMap Nat)
    (h : ∀ a, l.head? = some a → now ≤ accesstime s a) :
    inspectionLoop s now l d = (l, d) := by
  cases l with
  | nil => rfl
  | cons a l =>
    have := h a rfl
    simp only [inspectionLoop, if_neg (not_lt.mpr this)]

/-- The head the loop stops at is not expired. -/
theorem inspectionLoop_head (s : Session) (now : Int) (l : List Nat) (d : GoMap Nat) :
    ∀ a, (inspectionLoop s now l d).1.head? = some a → now ≤ accesstime s a := by
  induction l generalizing d with
  | nil => intro a h; cases h
  | cons b l ih =>
    intro a h
    by_cases hb : accesstime s b < now
    · simp only [inspectionLoop, if_pos hb] at h
      exact ih _ a h
    · simp only [inspectionLoop, if_neg hb, List.head?_cons, Option.some.injEq] at h
      subst h
      exact not_lt.mp hb

theorem inspection_objs (s : Session) (now : Int) : (inspection s now).objs = s.objs := rfl

theorem inspection_maps (s : Session) (now : Int) : (inspection s now).maps = s.maps := rfl

theorem inspection_name (s : Session) (now : Int) : (inspection s now).name = s.name := rfl

theorem inspection_maxage (s : Session) (now : Int) : (inspection s now).maxage = s.maxage := rfl

theorem inspection_storage (s : Session) (now : Int) (a : Nat) :
    (inspection s now).storage a = s.storage a := rfl

theorem inspection_accesstime (s : Session) (now : Int) (a : Nat) :
    accesstime (inspection s now) a = accesstime s a := rfl

theorem inspection_list (s : Session) (now : Int) :
    (inspection s now).list = s.list.dropWhile (fun a => decide (accesstime s a < now)) :=
  inspectionLoop_list s now s.list s.data

theorem inspection_data (s : Session) (now : Int) :
    (inspection s now).data
      = (s.list.takeWhile (fun a => decide (accesstime s a < now))).foldl
          (fun d a => mapDelete d (s.storage a).ssid) s.data :=
  inspectionLoop_data s now s.list s.data

/-- A sweep only deletes keys: a binding found afterwards was there before. -/
theorem foldl_mapDelete_some (s : Session) (l : List Nat) (d : GoMap Nat) (k : String)
    (a : Nat)
    (h : mapGet (l.foldl (fun d a => mapDelete d (s.storage a).ssid) d) k = some a) :
    mapGet d k = some a ∧ ∀ b ∈ l, (s.storage b).ssid ≠ k := by
  induction l generalizing d with
  | nil => exact ⟨h, fun b hb => by cases hb⟩
  | cons b l ih =>
    obtain ⟨h1, h2⟩ := ih _ h
    obtain ⟨h3, h4⟩ := mapGet_mapDelete_some d _ k a h1
    refine ⟨h3, ?_⟩
    intro c hc
    rcases List.mem_cons.mp hc with rfl | hc
    · exact fun e => h4 e.symm
    · exact h2 c hc

/-- A key that is the id of no removed entry keeps its binding. -/
theorem foldl_mapDelete_keep (s : Session) (l : List Nat) (d : GoMap Nat) (k : String)
    (h : ∀ b ∈ l, (s.storage b).ssid ≠ k) :
    mapGet (l.foldl (fun d a => mapDelete d (s.storage a).ssid) d) k = mapGet d k := by
  induction l generalizing d with
  | nil => rfl
  | cons b l ih =>
    rw [List.foldl_cons, ih _ (fun c hc => h c (List.mem_cons_of_mem _ hc))]
    exact mapGet_mapDelete_ne d _ k (fun e => h b (List.mem_cons_self _ _) e.symm)

/-- The id of a removed entry is no longer a key. -/
theorem foldl_mapDelete_gone (s : Session) (l : List Nat) (d : GoMap Nat) (b : Nat)
    (hb : b ∈ l) :
    mapGet (l.foldl (fun d a => mapDelete d (s.storage a).ssid) d) (s.storage b).ssid
      = none := by
  cases hget : mapGet (l.foldl (fun d a => mapDelete d (s.storage a).ssid) d)
      (s.storage b).ssid with
  | none => rfl
  | some a => exact absurd rfl ((foldl_mapDelete_some s l d _ a hget).2 b hb)

/-! ## Field-by-field description of `Destroy` -/

theorem mapGet_mem {β : Type} (m : GoMap β) (k : String) (v : β) (h : mapGet m k = some v) :
    (k, v) ∈ m := by
  induction m with
  | nil => cases h
  | cons p m ih =>
    obtain ⟨k', v'⟩ := p
    rw [mapGet_cons] at h
    by_cases hk : k' = k
    · rw [if_pos hk] at h
      cases h
      subst hk
      exact List.mem_cons_self _ _
    · rw [if_neg hk] at h
      exact List.mem_cons_of_mem _ (ih h)

theorem Destroy_of_match (s : Session) (now : Int) (r : Request) (v : String) (a : Nat)
    (hc : r.Cookie s.name = some v) (hv : v ≠ "") (hg : mapGet s.data v = some a) :
    (Destroy s now r).1 = { s with data := mapDelete s.data v, list := s.list.erase a } := by
  simp [Destroy, hc, hv, hg]

theorem Destroy_of_no_match (s : Session) (now : Int) (r : Request)
    (h : r.Cookie s.name = none ∨ r.Cookie s.name = some "" ∨
      ∃ v, r.Cookie s.name = some v ∧ mapGet s.data v = none) :
    (Destroy s now r).1 = s := by
  rcases h with h | h | ⟨v, h, hg⟩
  · simp [Destroy, h]
  · simp [Destroy, h]
  · by_cases hv : v = "" <;> simp [Destroy, h, hv, hg]

/-! ## Pointer well-formedness is kept by every step -/

theorem mem_mapDelete {β : Type} (m : GoMap β) (k : String) (kv : String × β)
    (h : kv ∈ mapDelete m k) : kv ∈ m ∧ kv.1 ≠ k := by
  simpa [mapDelete] using h

theorem WF_New (name : String) (maxage keep : Int) (secure : Bool) :
    (New name maxage keep secure).WF := by
  simp [Session.WF, New]

theorem WF_addr_lt (s : Session) (hwf : s.WF) (k : String) (a : Nat)
    (hg : mapGet s.data k = some a) :
    a ∈ s.list ∧ a < s.objs.length ∧ (s.storage a).ssid = k := by
  obtain ⟨-, hlt, hdata⟩ := hwf
  obtain ⟨h1, h2⟩ := hdata (k, a) (mapGet_mem s.data k a hg)
  exact ⟨h1, hlt a h1, h2⟩

theorem WF_Start (s : Session) (now : Int) (ssid : String) (r : Request) (hwf : s.WF) :
    (Start s now ssid r).1.WF := by
  obtain ⟨hnd, hlt, hdata⟩ := hwf
  refine ⟨?_, ?_, ?_⟩
  · rw [Start_list]
    refine List.Nodup.append hnd (List.nodup_singleton _) ?_
    intro a ha hb
    rw [List.mem_singleton] at hb
    have := hlt a ha
    omega
  · intro a ha
    rw [Start_list, List.mem_append, List.mem_singleton] at ha
    rw [Start_objs_length]
    rcases ha with ha | ha
    · have := hlt a ha
      omega
    · omega
  · intro kv hkv
    rw [Start_data, mapSet, List.mem_cons] at hkv
    rw [Start_list]
    rcases hkv with rfl | hkv
    · exact ⟨by simp, (Start_storage_new s now ssid r).2⟩
    · obtain ⟨hmem, -⟩ := mem_mapDelete _ _ _ hkv
      obtain ⟨h1, h2⟩ := hdata kv hmem
      refine ⟨List.mem_append_left _ h1, ?_⟩
      rw [Start_storage_old s now ssid r kv.2 (hlt _ h1)]
      split <;> simpa using h2

theorem WF_Destroy (s : Session) (now : Int) (r : Request) (hwf : s.WF) :
    (Destroy s now r).1.WF := by
  cases hc : r.Cookie s.name with
  | none => rw [Destroy_of_no_match s now r (Or.inl hc)]; exact hwf
  | some v =>
    by_cases hv : v = ""
    · subst hv
      rw [Destroy_of_no_match s now r (Or.inr (Or.inl hc))]; exact hwf
    · cases hg : mapGet s.data v with
      | none => rw [Destroy_of_no_match s now r (Or.inr (Or.inr ⟨v, hc, hg⟩))]; exact hwf
      | some a =>
        rw [Destroy_of_match s now r v a hc hv hg]
        obtain ⟨-, -, hida⟩ := WF_addr_lt s hwf v a hg
        obtain ⟨hnd, hlt, hdata⟩ := hwf
        refine ⟨hnd.erase a, fun b hb => hlt b (List.mem_of_mem_erase hb), ?_⟩
        intro kv hkv
        obtain ⟨hmem, hne⟩ := mem_mapDelete _ _ _ hkv
        obtain ⟨h1, h2⟩ := hdata kv hmem
        refine ⟨(List.mem_erase_of_ne ?_).mpr h1, h2⟩
        intro e
        apply hne
        have h3 : (s.storage kv.2).ssid = kv.1 := h2
        rw [← h3, e]
        exact hida

theorem WF_inspectionLoop (s : Session) (now : Int) (l : List Nat) (d : GoMap Nat)
    (hnd : l.Nodup) (hdata : ∀ kv ∈ d, kv.2 ∈ l ∧ (s.storage kv.2).ssid = kv.1) :
    ∀ kv ∈ (inspectionLoop s now l d).2,
      kv.2 ∈ (inspectionLoop s now l d).1 ∧ (s.storage kv.2).ssid = kv.1 := by
  induction l generalizing d with
  | nil => exact hdata
  | cons a l ih =>
    by_cases h : accesstime s a < now
    · simp only [inspectionLoop, if_pos h]
      apply ih _ (List.nodup_cons.mp hnd).2
      intro kv hkv
      obtain ⟨hmem, hne⟩ := mem_mapDelete _ _ _ hkv
      obtain ⟨h1, h2⟩ := hdata kv hmem
      refine ⟨?_, h2⟩
      rcases List.mem_cons.mp h1 with e | h1
      · exact absurd (by rw [← h2, e]) hne
      · exact h1
    · simp only [inspectionLoop, if_neg h]
      exact hdata

theorem WF_inspection (s : Session) (now : Int) (hwf : s.WF) : (inspection s now).WF := by
  obtain ⟨hnd, hlt, hdata⟩ := hwf
  refine ⟨?_, ?_, WF_inspectionLoop s now s.list s.data hnd hdata⟩
  · rw [inspection_list]
    exact hnd.sublist (List.dropWhile_sublist _)
  · intro a ha
    rw [inspection_list] at ha
    exact hlt a ((List.dropWhile_sublist _).subset ha)

theorem WF_step (s : Session) (st : Step) (hwf : s.WF) : (step s st).WF := by
  cases st with
  | start now ssid r => exact WF_Start s now ssid r hwf
  | destroy now r => exact WF_Destroy s now r hwf
  | sweep now => exact WF_inspection s now hwf
  | set p key value => exact hwf
  | delete p key =>
    show (Storage.Delete s p key).WF
    unfold Storage.Delete
    split
    · exact hwf
    · exact hwf

theorem WF_run (s : Session) (steps : List Step) (hwf : s.WF) : (run s steps).WF := by
  induction steps generalizing s with
  | nil => exact hwf
  | cons st steps ih => exact ih (step s st) (WF_step s st hwf)

/-! ## List facts used for the sweep and for the order of the list -/

/-- In a duplicate-free list, `a` is dropped by `dropWhile` exactly when it and
everything ahead of it satisfy the test. -/
theorem not_mem_dropWhile_iff (P : Nat → Bool) (l : List Nat) (a : Nat) (hnd : l.Nodup)
    (ha : a ∈ l) :
    a ∉ l.dropWhile P ↔
      (∀ b ∈ l.takeWhile (fun b => decide (b ≠ a)), P b = true) ∧ P a = true := by
  induction l with
  | nil => cases ha
  | cons x xs ih =>
    obtain ⟨hx, hxs⟩ := List.nodup_cons.mp hnd
    by_cases hxa : x = a
    · subst hxa
      cases hP : P x with
      | false => simp [List.dropWhile, List.takeWhile, hP]
      | true =>
        have : x ∉ xs.dropWhile P := fun h => hx ((List.dropWhile_sublist P).subset h)
        simp [List.dropWhile, List.takeWhile, hP, this]
    · have ha' : a ∈ xs := by
        rcases List.mem_cons.mp ha with e | h
        · exact absurd e.symm hxa
        · exact h
      cases hP : P x with
      | false =>
        simp [List.dropWhile, List.takeWhile, hP, hxa, ha']
      | true =>
        simp [List.dropWhile, List.takeWhile, hP, hxa, ih hxs ha']

/-- Resetting some values to 0 leaves a sublist of the non-zero values. -/
theorem zeroed_filter_sublist (l : List Nat) (f g : Nat → Int)
    (h : ∀ b ∈ l, g b = f b ∨ g b = 0) :
    List.Sublist ((l.map g).filter (fun x => decide (x ≠ 0)))
      ((l.map f).filter (fun x => decide (x ≠ 0))) := by
  induction l with
  | nil => exact List.Sublist.slnil
  | cons b l ih =>
    have ih' := ih (fun c hc => h c (List.mem_cons_of_mem _ hc))
    rcases h b (List.mem_cons_self _ _) with hb | hb
    · by_cases hz : f b = 0
      · simpa [List.filter, hb, hz] using ih'
      · simpa [List.filter, hb, hz] using ih'
    · by_cases hz : f b = 0
      · simpa [List.filter, hb, hz] using ih'
      · simpa [List.filter, hb, hz] using List.Sublist.cons (f b) ih'

/-! ## The order invariant is kept by every step taken with a later clock -/

theorem ordered_mono (s : Session) (t t' : Int) (h : s.ordered t) (htt : t ≤ t') :
    s.ordered t' :=
  ⟨h.1, h.2.1, fun x hx => le_trans (h.2.2 x hx) htt⟩

/-- A step that keeps the memory of storages and leaves a sublist of the list
keeps the order invariant. -/
theorem ordered_of_sublist (s s' : Session) (t : Int) (h : s.ordered t) (hwf : s'.WF)
    (hobjs : s'.objs = s.objs) (hsub : List.Sublist s'.list s.list) : s'.ordered t := by
  have hst : ∀ a, s'.storage a = s.storage a := fun a => by simp [Session.storage, hobjs]
  have hlive : List.Sublist (liveAccessList s') (liveAccessList s) := by
    unfold liveAccessList accessList
    simp only [hst]
    exact (hsub.map _).filter _
  exact ⟨hwf, h.2.1.sublist hlive, fun x hx => h.2.2 x (hlive.subset hx)⟩

theorem ordered_Start (s : Session) (now : Int) (ssid : String) (r : Request) (t : Int)
    (h : s.ordered t) (ht : t ≤ now) : (Start s now ssid r).1.ordered now := by
  obtain ⟨hwf, hsorted, hle⟩ := h
  have hold : ∀ b ∈ s.list,
      ((Start s now ssid r).1.storage b).Access = (s.storage b).Access ∨
      ((Start s now ssid r).1.storage b).Access = 0 := by
    intro b hb
    rw [Start_storage_old s now ssid r b (hwf.2.1 b hb)]
    split
    · exact Or.inr rfl
    · exact Or.inl rfl
  have hsub := zeroed_filter_sublist s.list (fun b => (s.storage b).Access)
    (fun b => ((Start s now ssid r).1.storage b).Access) hold
  have hlive : liveAccessList (Start s now ssid r).1
      = (s.list.map (fun b => ((Start s now ssid r).1.storage b).Access)).filter
          (fun x => decide (x ≠ 0))
        ++ [now].filter (fun x => decide (x ≠ 0)) := by
    unfold liveAccessList accessList
    rw [Start_list, List.map_append, List.filter_append, List.map_singleton,
      (Start_storage_new s now ssid r).1]
  have hsub' : List.Sublist
      ((s.list.map (fun b => ((Start s now ssid r).1.storage b).Access)).filter
        (fun x => decide (x ≠ 0))) (liveAccessList s) := hsub
  have hlast : ∀ y ∈ [now].filter (fun x => decide (x ≠ 0)), y = now := by
    intro y hy
    have := (List.mem_filter.mp hy).1
    simpa using this
  refine ⟨WF_Start s now ssid r hwf, ?_, ?_⟩
  · rw [hlive, List.pairwise_append]
    refine ⟨hsorted.sublist hsub', ?_, ?_⟩
    · exact (List.pairwise_singleton _ now).sublist (List.filter_sublist _)
    · intro x hx y hy
      rw [hlast y hy]
      exact le_trans (hle x (hsub'.subset hx)) ht
  · intro x hx
    rw [hlive, List.mem_append] at hx
    rcases hx with hx | hx
    · exact le_trans (hle x (hsub'.subset hx)) ht
    · rw [hlast x hx]

theorem ordered_Destroy (s : Session) (now : Int) (r : Request) (t : Int)
    (h : s.ordered t) : (Destroy s now r).1.ordered t := by
  apply ordered_of_sublist s _ t h (WF_Destroy s now r h.1)
  · unfold Destroy
    split
    · rfl
    · split
      · rfl
      · split <;> rfl
  · unfold Destroy
    split
    · exact List.Sublist.refl _
    · split
      · exact List.Sublist.refl _
      · split
        · exact List.erase_sublist _ _
        · exact List.Sublist.refl _

theorem ordered_inspection (s : Session) (now : Int) (t : Int) (h : s.ordered t) :
    (inspection s now).ordered t := by
  apply ordered_of_sublist s _ t h (WF_inspection s now h.1) rfl
  rw [inspection_list]
  exact List.dropWhile_sublist _

theorem ordered_run (steps : List Step) (s : Session) (t : Int) (h : s.ordered t)
    (hclock : (clock steps).Pairwise (· ≤ ·)) (hfrom : ∀ x ∈ clock steps, t ≤ x) :
    ∃ t', (run s steps).ordered t' := by
  induction steps generalizing s t with
  | nil => exact ⟨t, h⟩
  | cons st steps ih =>
    cases st with
    | start now ssid r =>
      have hc : clock (Step.start now ssid r :: steps) = now :: clock steps := rfl
      rw [hc] at hclock hfrom
      obtain ⟨h1, h2⟩ := List.pairwise_cons.mp hclock
      exact ih _ now (ordered_Start s now ssid r t h (hfrom now (List.mem_cons_self _ _))) h2 h1
    | destroy now r =>
      have hc : clock (Step.destroy now r :: steps) = now :: clock steps := rfl
      rw [hc] at hclock hfrom
      obtain ⟨h1, h2⟩ := List.pairwise_cons.mp hclock
      exact ih _ now (ordered_mono _ t now (ordered_Destroy s now r t h)
        (hfrom now (List.mem_cons_self _ _))) h2 h1
    | sweep now =>
      have hc : clock (Step.sweep now :: steps) = now :: clock steps := rfl
      rw [hc] at hclock hfrom
      obtain ⟨h1, h2⟩ := List.pairwise_cons.mp hclock
      exact ih _ now (ordered_mono _ t now (ordered_inspection s now t h)
        (hfrom now (List.mem_cons_self _ _))) h2 h1
    | set p key value =>
      have hc : clock (Step.set p key value :: steps) = clock steps := rfl
      rw [hc] at hclock hfrom
      exact ih _ t (ordered_of_sublist s _ t h h.1 rfl (List.Sublist.refl _)) hclock hfrom
    | delete p key =>
      have hc : clock (Step.delete p key :: steps) = clock steps := rfl
      rw [hc] at hclock hfrom
      have hobjs : (Storage.Delete s p key).objs = s.objs := by
        unfold Storage.Delete; split <;> rfl
      have hlist : (Storage.Delete s p key).list = s.list := by
        unfold Storage.Delete; split <;> rfl
      have hsub : List.Sublist (Storage.Delete s p key).list s.list := by
        rw [hlist]
      exact ih _ t (ordered_of_sublist s _ t h (WF_step s (.delete p key) h.1) hobjs
        hsub) hclock hfrom

/-! ## The sweep on a list ordered by `Access` -/

theorem wrapInt64_of_range (x : Int) (h1 : -2 ^ 63 ≤ x) (h2 : x < 2 ^ 63) :
    wrapInt64 x = x := by
  unfold wrapInt64
  norm_num at h1 h2 ⊢
  omega

/-- On a list whose values `f` are non-decreasing, nothing that `dropWhile`
keeps passes a test that is downward closed in `f`. -/
theorem dropWhile_sorted_unexpired (f : Nat → Int) (bound : Int) (l : List Nat)
    (hs : (l.map f).Pairwise (· ≤ ·)) :
    ∀ a ∈ l.dropWhile (fun a => decide (f a < bound)), bound ≤ f a := by
  induction l with
  | nil => intro a ha; cases ha
  | cons x xs ih =>
    rw [List.map_cons, List.pairwise_cons] at hs
    by_cases hx : f x < bound
    · simpa [List.dropWhile, hx] using ih hs.2
    · intro a ha
      simp only [List.dropWhile, hx, decide_False] at ha
      rcases List.mem_cons.mp ha with rfl | ha
      · exact not_lt.mp hx
      · exact le_trans (not_lt.mp hx) (hs.1 (f a) (List.mem_map_of_mem f ha))

/-- What `dropWhile` keeps of a list: every member that fails the test. -/
theorem mem_dropWhile_of_not (P : Nat → Bool) (l : List Nat) (a : Nat) (ha : a ∈ l)
    (hP : P a = false) : a ∈ l.dropWhile P := by
  rw [← List.takeWhile_append_dropWhile P l] at ha
  rcases List.mem_append.mp ha with h | h
  · have := List.mem_takeWhile_imp h
    rw [hP] at this
    cases this
  · exact h

/-- Early exit on an ordered list whose deadlines fit in 64 bits: after a sweep
pass every entry left in the list or in the id map is unexpired, every
unexpired entry is still in the list, and (ids being distinct) still in the id
map. -/
theorem inspection_complete_in_range (s : Session) (now : Int) (hwf : s.WF)
    (hsorted : (accessList s).Pairwise (· ≤ ·))
    (hrange : ∀ a ∈ s.list, -2 ^ 63 ≤ (s.storage a).Access + s.maxage ∧
      (s.storage a).Access + s.maxage < 2 ^ 63) :
    (∀ a ∈ (inspection s now).list, now ≤ (s.storage a).Access + s.maxage) ∧
    (∀ k a, mapGet (inspection s now).data k = some a →
      now ≤ (s.storage a).Access + s.maxage) ∧
    (∀ a ∈ s.list, now ≤ (s.storage a).Access + s.maxage → a ∈ (inspection s now).list) ∧
    ((idList s).Nodup → ∀ k a, mapGet s.data k = some a →
      now ≤ (s.storage a).Access + s.maxage → mapGet (inspection s now).data k = some a) := by
  have hacc : ∀ a ∈ s.list, accesstime s a = (s.storage a).Access + s.maxage := fun a ha =>
    wrapInt64_of_range _ (hrange a ha).1 (hrange a ha).2
  have hdrop : s.list.dropWhile (fun a => decide (accesstime s a < now))
      = s.list.dropWhile (fun a => decide ((s.storage a).Access + s.maxage < now)) := by
    have : ∀ l : List Nat, (∀ a ∈ l, accesstime s a = (s.storage a).Access + s.maxage) →
        l.dropWhile (fun a => decide (accesstime s a < now))
          = l.dropWhile (fun a => decide ((s.storage a).Access + s.maxage < now)) := by
      intro l
      induction l with
      | nil => intro _; rfl
      | cons x xs ih =>
        intro h
        simp only [List.dropWhile, h x (List.mem_cons_self _ _),
          ih (fun a ha => h a (List.mem_cons_of_mem _ ha))]
    exact this s.list hacc
  have hlist : ∀ a ∈ (inspection s now).list, now ≤ (s.storage a).Access + s.maxage := by
    intro a ha
    rw [inspection_list, hdrop] at ha
    apply dropWhile_sorted_unexpired (fun a => (s.storage a).Access + s.maxage) now s.list _ a ha
    have hs' : (s.list.map (fun a => (s.storage a).Access)).Pairwise (· ≤ ·) := hsorted
    rw [List.pairwise_map] at hs' ⊢
    exact hs'.imp (fun h => by omega)
  have hkeep : ∀ a ∈ s.list, now ≤ (s.storage a).Access + s.maxage →
      a ∈ (inspection s now).list := by
    intro a ha hnow
    rw [inspection_list]
    apply mem_dropWhile_of_not _ _ a ha
    rw [decide_eq_false_iff_not, hacc a ha]
    omega
  have htake : ∀ b ∈ s.list.takeWhile (fun a => decide (accesstime s a < now)),
      b ∈ s.list ∧ accesstime s b < now := by
    intro b hb
    exact ⟨(List.takeWhile_sublist _).subset hb, by simpa using List.mem_takeWhile_imp hb⟩
  refine ⟨hlist, ?_, hkeep, ?_⟩
  · intro k a hget
    rw [inspection_data] at hget
    obtain ⟨h1, h2⟩ := foldl_mapDelete_some s _ s.data k a hget
    obtain ⟨hal, -, hid⟩ := WF_addr_lt s hwf k a h1
    by_contra hlt
    have hexp : accesstime s a < now := by rw [hacc a hal]; omega
    have hmem : a ∈ s.list.takeWhile (fun a => decide (accesstime s a < now)) := by
      have h := hal
      rw [← List.takeWhile_append_dropWhile (fun a => decide (accesstime s a < now)) s.list] at h
      rcases List.mem_append.mp h with h | h
      · exact h
      · have := hlist a (by rw [inspection_list]; exact h)
        exact absurd this hlt
    exact h2 a hmem hid
  · intro hids k a hget hnow
    obtain ⟨hal, -, hid⟩ := WF_addr_lt s hwf k a hget
    rw [inspection_data, foldl_mapDelete_keep s _ s.data k, hget]
    intro b hb hbk
    obtain ⟨hbl, hbexp⟩ := htake b hb
    have hinj := List.inj_on_of_nodup_map hids hbl hal (by rw [hbk, hid])
    rw [hinj, hacc a hal] at hbexp
    omega

/-- The hypotheses of `inspection_complete_in_range` hold of `twoClients`,
swept a second after its max-age ran out. -/
theorem inspection_complete_in_range_example :
    twoClients.WF ∧ (accessList twoClients).Pairwise (· ≤ ·) ∧
    (∀ a ∈ twoClients.list, -2 ^ 63 ≤ (twoClients.storage a).Access + twoClients.maxage ∧
      (twoClients.storage a).Access + twoClients.maxage < 2 ^ 63) ∧
    ∀ a ∈ (inspection twoClients 1700001001).list,
      1700001001 ≤ (twoClients.storage a).Access + twoClients.maxage :=
  ⟨by decide, by decide, by decide,
    (inspection_complete_in_range twoClients 1700001001 (by decide) (by decide)
      (by decide)).1⟩

/-! ## Session ids pass `url.QueryEscape` unchanged -/

theorem escapeChar_hex (c : Char) (h : c ∈ "0123456789ABCDEF".toList) :
    escapeChar c = [c] := by
  simp only [String.toList, List.mem_cons, List.mem_singleton, List.not_mem_nil,
    or_false] at h
  rcases h with rfl | rfl | rfl | rfl | rfl | rfl | rfl | rfl | rfl | rfl | rfl | rfl | rfl |
    rfl | rfl | rfl <;> decide

theorem flatMap_escapeChar_hex (l : List Char)
    (h : ∀ c ∈ l, c ∈ "0123456789ABCDEF".toList) : l.flatMap escapeChar = l := by
  induction l with
  | nil => rfl
  | cons c l ih =>
    rw [List.flatMap_cons, escapeChar_hex c (h c (List.mem_cons_self _ _)),
      ih (fun d hd => h d (List.mem_cons_of_mem _ hd))]
    rfl

theorem QueryEscape_sessionID (id : String) (h : isSessionID id) :
    QueryEscape id = id ∧ id ≠ "" := by
  constructor
  · unfold QueryEscape
    rw [flatMap_escapeChar_hex id.toList h.2]
    rfl
  · intro e
    have := h.1
    rw [e] at this
    simp at this

/-! ## The sweeps between two requests -/

theorem inspection_data_some (s : Session) (now : Int) (k : String) (a : Nat)
    (h : mapGet (inspection s now).data k = some a) : mapGet s.data k = some a := by
  rw [inspection_data] at h
  exact (foldl_mapDelete_some s _ s.data k a h).1

theorem arrive_fields (v : Visit) (s : Session) :
    (v.arrive s).objs = s.objs ∧ (v.arrive s).maps = s.maps ∧ (v.arrive s).name = s.name ∧
    ∀ k a, mapGet (v.arrive s).data k = some a → mapGet s.data k = some a := by
  unfold Visit.arrive
  generalize v.sweeps = l
  induction l generalizing s with
  | nil => exact ⟨rfl, rfl, rfl, fun _ _ h => h⟩
  | cons t l ih =>
    obtain ⟨h1, h2, h3, h4⟩ := ih (inspection s t)
    exact ⟨h1, h2, h3, fun k a h => inspection_data_some s t k a (h4 k a h)⟩

/-! ## The handler of the visit counter -/

theorem wrapInt64_add (x y : Int) : wrapInt64 (wrapInt64 x + y) = wrapInt64 (x + y) := by
  unfold wrapInt64
  norm_num
  omega

theorem Storage_Int_of_int (s : Session) (p : Nat) (key : String) (n : Int)
    (h : mapGet (s.values p) key = some (.int n)) : Storage.Int s p key = (n, none) := by
  simp [Storage.Int, Storage.Get, h]

theorem Storage_Int_of_absent (s : Session) (p : Nat) (key : String)
    (h : mapGet (s.values p) key = none) : (Storage.Int s p key).1 = 0 := by
  simp [Storage.Int, Storage.Get, h]

theorem Storage_Set_values (s : Session) (p : Nat) (key : String) (value : Value)
    (h : (s.storage p).Values < s.maps.length) :
    (Storage.Set s p key value).values p = mapSet (s.values p) key value := by
  have hread : ∀ x : GoMap Value,
      ((s.maps.set (s.storage p).Values x)[(s.storage p).Values]?).getD [] = x := by
    intro x
    simp [h]
  exact hread _

/-- After the handler ran on the storage `p`, which the id map reaches from
`cookie` and whose map is allocated, the entry counts the value it returned. -/
theorem handler_counted (s : Session) (p : Nat) (cookie : String) (hc : cookie ≠ "")
    (hd : mapGet s.data cookie = some p) (hv : (s.storage p).Values < s.maps.length) :
    counted (handler s p).1 cookie (handler s p).2 ∧ (handler s p).1.name = s.name := by
  refine ⟨⟨hc, p, hd, ?_, ?_⟩, rfl⟩
  · show (s.storage p).Values < (s.maps.set _ _).length
    rw [List.length_set]
    exact hv
  · show mapGet ((Storage.Set s p "INT" _).values p) "INT" = _
    rw [Storage_Set_values s p _ _ hv, mapGet_mapSet_self]
    rfl

/-- The first request of a client, without session cookie: the handler
computes 1 and the new entry counts 1. -/
theorem visit_first (s : Session) (r : Request) (v : Visit)
    (hr : r.Cookie s.name = none) (hid : isSessionID v.ssid) :
    (visit s r v).2.2 = 1 ∧ counted (visit s r v).1 (visit s r v).2.1 1 ∧
    (visit s r v).1.name = s.name := by
  obtain ⟨hobjs, hmaps, hname, -⟩ := arrive_fields v s
  obtain ⟨hesc, hne⟩ := QueryEscape_sessionID v.ssid hid
  have hl : (v.arrive s).lookup r = none := by simp [Session.lookup, hname, hr]
  have hp := Start_handle (v.arrive s) v.now v.ssid r
  have hcookie : (Start (v.arrive s) v.now v.ssid r).2.2.Value = v.ssid := by
    simp [Start, hl, hesc]
  have hd : mapGet (Start (v.arrive s) v.now v.ssid r).1.data v.ssid
      = some (Start (v.arrive s) v.now v.ssid r).2.1 := by
    rw [Start_data, hp, mapGet_mapSet_self]
  have hvals := Start_returned_values (v.arrive s) v.now v.ssid r
  rw [hl] at hvals
  have href : ((Start (v.arrive s) v.now v.ssid r).1.storage
      (Start (v.arrive s) v.now v.ssid r).2.1).Values
        < (Start (v.arrive s) v.now v.ssid r).1.maps.length := by
    simp [Start, hl, Session.storage]
  have hn : (handler (Start (v.arrive s) v.now v.ssid r).1
      (Start (v.arrive s) v.now v.ssid r).2.1).2 = 1 := by
    simp only [handler]
    rw [Storage_Int_of_absent _ _ _ (by rw [hvals]; rfl)]
    decide
  obtain ⟨h1, h2⟩ := handler_counted _ _ v.ssid hne hd href
  simp only [visit]
  rw [hcookie]
  rw [hn] at h1
  exact ⟨hn, h1, by rw [h2, Start_name, hname]⟩

/-- A later request of the client, carrying the cookie of an entry that counts
`n` and is still in the id map when the request arrives: the handler computes
`n+1` and the new entry counts it. -/
theorem visit_next (s : Session) (cookie : String) (n : Int) (v : Visit)
    (hcnt : counted s cookie n) (hid : isSessionID v.ssid)
    (hkept : mapGet (v.arrive s).data cookie ≠ none) :
    (visit s ⟨[(s.name, cookie)]⟩ v).2.2 = wrapInt64 (n + 1) ∧
    counted (visit s ⟨[(s.name, cookie)]⟩ v).1 (visit s ⟨[(s.name, cookie)]⟩ v).2.1
      (wrapInt64 (n + 1)) ∧
    (visit s ⟨[(s.name, cookie)]⟩ v).1.name = s.name := by
  obtain ⟨hobjs, hmaps, hname, hdata⟩ := arrive_fields v s
  obtain ⟨hesc, hne⟩ := QueryEscape_sessionID v.ssid hid
  obtain ⟨hcne, p, hp, hpref, hpint⟩ := hcnt
  have hstor : ∀ a, (v.arrive s).storage a = s.storage a := fun a => by
    simp [Session.storage, hobjs]
  have hvalsame : (v.arrive s).values p = s.values p := by
    simp [Session.values, hstor, hmaps]
  have hp' : mapGet (v.arrive s).data cookie = some p := by
    cases h : mapGet (v.arrive s).data cookie with
    | none => exact absurd h hkept
    | some q =>
      have := hdata cookie q h
      rw [hp] at this
      rw [Option.some.inj this]
  have hl : (v.arrive s).lookup ⟨[(s.name, cookie)]⟩ = some p := by
    rw [lookup_eq_of_cookie _ _ cookie (by simp [Request.Cookie, hname]) hcne, hp']
  have hhandle := Start_handle (v.arrive s) v.now v.ssid ⟨[(s.name, cookie)]⟩
  have hcookie : (Start (v.arrive s) v.now v.ssid ⟨[(s.name, cookie)]⟩).2.2.Value = v.ssid := by
    simp [Start, hl, hesc]
  have hd : mapGet (Start (v.arrive s) v.now v.ssid ⟨[(s.name, cookie)]⟩).1.data v.ssid
      = some (Start (v.arrive s) v.now v.ssid ⟨[(s.name, cookie)]⟩).2.1 := by
    rw [Start_data, hhandle, mapGet_mapSet_self]
  have hvals := Start_returned_values (v.arrive s) v.now v.ssid ⟨[(s.name, cookie)]⟩
  rw [hl] at hvals
  have href : ((Start (v.arrive s) v.now v.ssid ⟨[(s.name, cookie)]⟩).1.storage
      (Start (v.arrive s) v.now v.ssid ⟨[(s.name, cookie)]⟩).2.1).Values
        < (Start (v.arrive s) v.now v.ssid ⟨[(s.name, cookie)]⟩).1.maps.length := by
    rw [Start_returned_ref _ _ _ _ p hl, Start_maps, hstor, hmaps, List.length_append]
    exact Nat.lt_succ_of_lt hpref
  have hn : (handler (Start (v.arrive s) v.now v.ssid ⟨[(s.name, cookie)]⟩).1
      (Start (v.arrive s) v.now v.ssid ⟨[(s.name, cookie)]⟩).2.1).2 = wrapInt64 (n + 1) := by
    simp only [handler]
    rw [Storage_Int_of_int _ _ _ n (by rw [hvals]; simp only []; rw [hvalsame]; exact hpint)]
  obtain ⟨h1, h2⟩ := handler_counted _ _ v.ssid hne hd href
  simp only [visit]
  rw [hcookie]
  rw [hn] at h1
  exact ⟨hn, h1, by rw [h2, Start_name, hname]⟩

/-- Along a chain of later requests the counter goes up by one per request, and
the last entry counts the last value. -/
theorem visits_count (vs : List Visit) (s : Session) (cookie : String) (n : Int)
    (hcnt : counted s cookie n) (hids : ∀ v ∈ vs, isSessionID v.ssid)
    (hsurv : survives s cookie vs) :
    counted (visits s cookie n vs).1 (visits s cookie n vs).2.1 (visits s cookie n vs).2.2 ∧
    ((visits s cookie n vs).2.2 = wrapInt64 (n + vs.length) ∨
      (vs = [] ∧ (visits s cookie n vs).2.2 = n)) := by
  induction vs generalizing s cookie n with
  | nil => exact ⟨hcnt, Or.inr ⟨rfl, rfl⟩⟩
  | cons v vs ih =>
    obtain ⟨hkept, hrest⟩ := hsurv
    obtain ⟨h1, h2, -⟩ := visit_next s cookie n v hcnt (hids v (List.mem_cons_self _ _)) hkept
    obtain ⟨hc, this⟩ := ih _ _ _ h2 (fun w hw => hids w (List.mem_cons_of_mem _ hw)) hrest
    simp only [visits]
    rw [h1]
    refine ⟨hc, Or.inl ?_⟩
    rcases this with h | ⟨hnil, h⟩
    · rw [h, wrapInt64_add, List.length_cons]
      push_cast
      ring_nf
    · rw [h, hnil]
      simp

/-! ## Reads and writes through a handle -/

theorem Storage_Get_of_some (s : Session) (p : Nat) (key : String) (v : Value)
    (h : mapGet (s.values p) key = some v) : Storage.Get s p key = (some v, none) := by
  simp [Storage.Get, h]

theorem Storage_Get_of_none (s : Session) (p : Nat) (key : String)
    (h : mapGet (s.values p) key = none) :
    Storage.Get s p key = (none, some ("'" ++ key ++ "' - not found")) := by
  simp [Storage.Get, h]

/-- A key can only be present in an allocated map. -/
theorem allocated_of_present (s : Session) (p : Nat) (key : String) (v : Value)
    (h : mapGet (s.values p) key = some v) : (s.storage p).Values < s.maps.length := by
  by_contra hlt
  have hnone : s.maps[(s.storage p).Values]? = none :=
    List.getElem?_eq_none (not_lt.mp hlt)
  simp [Session.values, hnone, mapGet] at h

theorem Storage_Delete_values (s : Session) (p : Nat) (key : String) :
    (Storage.Delete s p key).values p = mapDelete (s.values p) key := by
  cases h : mapGet (s.values p) key with
  | none =>
    have : Storage.Delete s p key = s := by simp [Storage.Delete, h]
    rw [this, mapDelete_of_mapGet_none _ _ h]
  | some v =>
    have halloc := allocated_of_present s p key v h
    have hread : ∀ x : GoMap Value,
        ((s.maps.set (s.storage p).Values x)[(s.storage p).Values]?).getD [] = x := by
      intro x
      simp [halloc]
    have : Storage.Delete s p key
        = { s with maps := s.maps.set (s.storage p).Values (mapDelete (s.values p) key) } := by
      simp [Storage.Delete, h]
    rw [this]
    exact hread _

/-- Every state reachable from `New` keeps its storages on allocated maps. -/
theorem allocated_step (s : Session) (st : Step) (h : s.allocated) : (step s st).allocated := by
  cases st with
  | start now ssid r =>
    intro x hx
    show x.Values < (Start s now ssid r).1.maps.length
    rw [Start_maps, List.length_append, List.length_singleton]
    have hx' : x ∈ (Start s now ssid r).1.objs := hx
    cases hl : s.lookup r with
    | none =>
      rw [Start_objs_of_none s now ssid r hl, List.mem_append, List.mem_singleton] at hx'
      rcases hx' with hx' | hx'
      · exact Nat.lt_succ_of_lt (h x hx')
      · rw [hx']; exact Nat.lt_succ_self _
    | some a =>
      have hold : (s.storage a).Values < s.maps.length ∨ s.storage a = default := by
        unfold Session.storage
        cases hget : s.objs[a]? with
        | none => exact Or.inr rfl
        | some y => exact Or.inl (h y (List.getElem?_mem hget))
      have hold' : (s.storage a).Values < s.maps.length + 1 := by
        rcases hold with hold | hold
        · exact Nat.lt_succ_of_lt hold
        · rw [hold]; exact Nat.succ_pos _
      rw [Start_objs_of_some s now ssid r a hl, List.mem_append, List.mem_singleton] at hx'
      rcases hx' with hx' | hx'
      · rcases List.mem_or_eq_of_mem_set hx' with hx' | hx'
        · exact Nat.lt_succ_of_lt (h x hx')
        · rw [hx']; exact hold'
      · rw [hx']; exact hold'
  | destroy now r =>
    have hobjs : (Destroy s now r).1.objs = s.objs := by
      unfold Destroy; split
      · rfl
      · split
        · rfl
        · split <;> rfl
    have hmaps : (Destroy s now r).1.maps = s.maps := by
      unfold Destroy; split
      · rfl
      · split
        · rfl
        · split <;> rfl
    intro x hx
    show x.Values < (Destroy s now r).1.maps.length
    rw [hmaps]
    exact h x (hobjs ▸ hx)
  | sweep now => exact h
  | set p key value =>
    intro x hx
    show x.Values < (s.maps.set _ _).length
    rw [List.length_set]
    exact h x hx
  | delete p key =>
    intro x hx
    have hobjs : (Storage.Delete s p key).objs = s.objs := by
      unfold Storage.Delete; split <;> rfl
    have hlen : (Storage.Delete s p key).maps.length = s.maps.length := by
      unfold Storage.Delete; split
      · simp
      · rfl
    show x.Values < (Storage.Delete s p key).maps.length
    rw [hlen]
    exact h x (hobjs ▸ hx)

theorem allocated_run (name : String) (maxage keep : Int) (secure : Bool) (steps : List Step) :
    (run (New name maxage keep secure) steps).allocated := by
  have key : ∀ (steps : List Step) (s : Session), s.allocated → (run s steps).allocated := by
    intro steps
    induction steps with
    | nil => exact fun s h => h
    | cons st steps ih => exact fun s h => ih (step s st) (allocated_step s st h)
  exact key steps _ (by intro x hx; cases hx)

theorem allocated_handle (s : Session) (p : Nat) (h : s.allocated) (hp : p < s.objs.length) :
    (s.storage p).Values < s.maps.length := by
  apply h
  unfold Session.storage
  rw [List.getElem?_eq_getElem hp]
  exact List.getElem_mem _

/-! ## Map/list consistency is kept by every step with a fresh id -/

theorem keys_mapDelete_sublist {β : Type} (m : GoMap β) (k : String) :
    ((mapDelete m k).map Prod.fst).Sublist (m.map Prod.fst) :=
  (List.filter_sublist _).map _

theorem not_mem_keys_mapDelete {β : Type} (m : GoMap β) (k : String) :
    k ∉ (mapDelete m k).map Prod.fst := by
  intro h
  obtain ⟨kv, hkv, hk⟩ := List.mem_map.mp h
  exact (mem_mapDelete m k kv hkv).2 hk

theorem keys_foldl_mapDelete_sublist (s : Session) (l : List Nat) (d : GoMap Nat) :
    ((l.foldl (fun d a => mapDelete d (s.storage a).ssid) d).map Prod.fst).Sublist
      (d.map Prod.fst) := by
  induction l generalizing d with
  | nil => exact List.Sublist.refl _
  | cons a l ih =>
    rw [List.foldl_cons]
    exact (ih _).trans (keys_mapDelete_sublist d _)

theorem mem_keys_iff {β : Type} (m : GoMap β) (k : String) :
    k ∈ m.map Prod.fst ↔ ∃ v, mapGet m k = some v := by
  induction m with
  | nil => simp [mapGet]
  | cons p m ih =>
    obtain ⟨k', v'⟩ := p
    rw [List.map_cons, List.mem_cons, mapGet_cons]
    by_cases hk : k' = k
    · subst hk
      simp
    · rw [if_neg hk, ih]
      constructor
      · rintro (h | h)
        · exact absurd h.symm hk
        · exact h
      · exact fun h => Or.inr h

theorem Start_ssid_old (s : Session) (now : Int) (ssid : String) (r : Request) (b : Nat)
    (hb : b < s.objs.length) :
    ((Start s now ssid r).1.storage b).ssid = (s.storage b).ssid := by
  rw [Start_storage_old s now ssid r b hb]
  split <;> rfl

theorem idList_Start (s : Session) (now : Int) (ssid : String) (r : Request) (hwf : s.WF) :
    idList (Start s now ssid r).1 = idList s ++ [ssid] := by
  unfold idList
  rw [Start_list, List.map_append, List.map_singleton, (Start_storage_new s now ssid r).2]
  congr 1
  apply List.map_congr_left
  intro b hb
  exact Start_ssid_old s now ssid r b (hwf.2.1 b hb)

/-- A step that leaves the list, the id map and the storages alone keeps
consistency. -/
theorem consistent_of_fields (s s' : Session) (hl : s'.list = s.list) (hd : s'.data = s.data)
    (ho : s'.objs = s.objs) (h : s.consistent) : s'.consistent := by
  simp only [Session.consistent, Session.WF, idList, keyList, Session.storage, hl, hd, ho]
    at h ⊢
  exact h

theorem consistent_New (name : String) (maxage keep : Int) (secure : Bool) :
    (New name maxage keep secure).consistent := by
  simp [Session.consistent, Session.WF, idList, keyList, New]

theorem consistent_Start (s : Session) (now : Int) (ssid : String) (r : Request)
    (h : s.consistent) (hfresh : ssid ∉ idList s) : (Start s now ssid r).1.consistent := by
  obtain ⟨hwf, hids, hkeys, hbind⟩ := h
  refine ⟨WF_Start s now ssid r hwf, ?_, ?_, ?_⟩
  · rw [idList_Start s now ssid r hwf]
    refine List.Nodup.append hids (List.nodup_singleton _) ?_
    intro x hx hx'
    rw [List.mem_singleton] at hx'
    exact hfresh (hx' ▸ hx)
  · unfold keyList
    rw [Start_data, mapSet, List.map_cons, List.nodup_cons]
    exact ⟨not_mem_keys_mapDelete _ _, hkeys.sublist (keys_mapDelete_sublist _ _)⟩
  · intro a ha
    rw [Start_list, List.mem_append, List.mem_singleton] at ha
    rw [Start_data]
    rcases ha with ha | ha
    · have hlt := hwf.2.1 a ha
      rw [Start_ssid_old s now ssid r a hlt]
      have hne : (s.storage a).ssid ≠ ssid := by
        intro e
        apply hfresh
        rw [← e]
        exact List.mem_map_of_mem (fun a => (s.storage a).ssid) ha
      rw [mapGet_mapSet_ne _ _ _ _ hne]
      exact hbind a ha
    · subst ha
      rw [(Start_storage_new s now ssid r).2]
      exact mapGet_mapSet_self _ _ _

theorem consistent_Destroy (s : Session) (now : Int) (r : Request) (h : s.consistent) :
    (Destroy s now r).1.consistent := by
  cases hc : r.Cookie s.name with
  | none => rw [Destroy_of_no_match s now r (Or.inl hc)]; exact h
  | some v =>
    by_cases hv : v = ""
    · subst hv
      rw [Destroy_of_no_match s now r (Or.inr (Or.inl hc))]; exact h
    · cases hg : mapGet s.data v with
      | none => rw [Destroy_of_no_match s now r (Or.inr (Or.inr ⟨v, hc, hg⟩))]; exact h
      | some a =>
        have hwf' := WF_Destroy s now r h.1
        rw [Destroy_of_match s now r v a hc hv hg] at hwf' ⊢
        obtain ⟨hwf, hids, hkeys, hbind⟩ := h
        obtain ⟨hal, -, hida⟩ := WF_addr_lt s hwf v a hg
        refine ⟨hwf', ?_, ?_, ?_⟩
        · exact hids.sublist ((List.erase_sublist a s.list).map _)
        · exact hkeys.sublist (keys_mapDelete_sublist _ _)
        · intro b hb
          have hbl : b ∈ s.list := List.mem_of_mem_erase hb
          have hba : b ≠ a := fun e => by
            rw [e] at hb
            exact (List.Nodup.mem_erase_iff hwf.1).mp hb |>.1 rfl
          have hne : (s.storage b).ssid ≠ v := by
            intro e
            exact hba (List.inj_on_of_nodup_map hids hbl hal (by rw [e, hida]))
          show mapGet (mapDelete s.data v) (s.storage b).ssid = some b
          rw [mapGet_mapDelete_ne _ _ _ hne]
          exact hbind b hbl

theorem consistent_inspection (s : Session) (now : Int) (h : s.consistent) :
    (inspection s now).consistent := by
  obtain ⟨hwf, hids, hkeys, hbind⟩ := h
  refine ⟨WF_inspection s now hwf, ?_, ?_, ?_⟩
  · unfold idList
    rw [inspection_list]
    exact hids.sublist ((List.dropWhile_sublist _).map _)
  · unfold keyList
    rw [inspection_data]
    exact hkeys.sublist (keys_foldl_mapDelete_sublist s _ s.data)
  · intro b hb
    rw [inspection_list] at hb
    have hbl : b ∈ s.list := (List.dropWhile_sublist _).subset hb
    have hsplit : idList s
        = (s.list.takeWhile (fun a => decide (accesstime s a < now))).map
            (fun a => (s.storage a).ssid)
          ++ (s.list.dropWhile (fun a => decide (accesstime s a < now))).map
            (fun a => (s.storage a).ssid) := by
      unfold idList
      rw [← List.map_append, List.takeWhile_append_dropWhile]
    rw [hsplit] at hids
    have hdisj := (List.nodup_append.mp hids).2.2
    show mapGet (inspection s now).data (s.storage b).ssid = some b
    rw [inspection_data, foldl_mapDelete_keep s _ s.data]
    · exact hbind b hbl
    · intro c hc e
      have h1 : (s.storage c).ssid ∈ (s.list.takeWhile
          (fun a => decide (accesstime s a < now))).map (fun a => (s.storage a).ssid) :=
        List.mem_map_of_mem (fun a => (s.storage a).ssid) hc
      have h2 : (s.storage b).ssid ∈ (s.list.dropWhile
          (fun a => decide (accesstime s a < now))).map (fun a => (s.storage a).ssid) :=
        List.mem_map_of_mem (fun a => (s.storage a).ssid) hb
      rw [← e] at h2
      exact hdisj h1 h2

theorem consistent_run (steps : List Step) (s : Session) (h : s.consistent)
    (hfresh : freshRun s steps) : (run s steps).consistent := by
  induction steps generalizing s with
  | nil => exact h
  | cons st steps ih =>
    cases st with
    | start now ssid r => exact ih _ (consistent_Start s now ssid r h hfresh.1) hfresh.2
    | destroy now r => exact ih _ (consistent_Destroy s now r h) hfresh
    | sweep now => exact ih _ (consistent_inspection s now h) hfresh
    | set p key value => exact ih _ (consistent_of_fields s _ rfl rfl rfl h) hfresh
    | delete p key =>
      have hl : (Storage.Delete s p key).list = s.list := by
        unfold Storage.Delete; split <;> rfl
      have hd : (Storage.Delete s p key).data = s.data := by
        unfold Storage.Delete; split <;> rfl
      have ho : (Storage.Delete s p key).objs = s.objs := by
        unfold Storage.Delete; split <;> rfl
      exact ih _ (consistent_of_fields s _ hl hd ho h) hfresh

/-- What consistency says of the keys: they are the ids of the list entries,
as many as the list is long. -/
theorem consistent_keys (s : Session) (h : s.consistent) :
    (∀ k, k ∈ keyList s ↔ k ∈ idList s) ∧ (keyList s).length = s.list.length := by
  obtain ⟨hwf, hids, hkeys, hbind⟩ := h
  have hmem : ∀ k, k ∈ keyList s ↔ k ∈ idList s := by
    intro k
    unfold keyList idList
    rw [mem_keys_iff]
    constructor
    · rintro ⟨a, ha⟩
      obtain ⟨hal, -, hid⟩ := WF_addr_lt s hwf k a ha
      exact hid ▸ List.mem_map_of_mem (fun a => (s.storage a).ssid) hal
    · intro hk
      obtain ⟨a, hal, hid⟩ := List.mem_map.mp hk
      exact ⟨a, hid ▸ hbind a hal⟩
  refine ⟨hmem, ?_⟩
  have hperm : (keyList s).Perm (idList s) := (List.perm_ext_iff_of_nodup hkeys hids).mpr hmem
  rw [hperm.length_eq]
  simp [idList]

/-! ## The ids in the registry are among those the generator issued -/

theorem run_append (s : Session) (pre post : List Step) :
    run s (pre ++ post) = run (run s pre) post := by
  simp [run, List.foldl_append]

theorem issued_append (pre post : List Step) :
    issued (pre ++ post) = issued pre ++ issued post := by
  induction pre with
  | nil => rfl
  | cons st pre ih =>
    cases st <;> simp [issued, ih]

/-- The ids in the list after one step: those before, and the id issued by the
step if it is a `Start`. -/
theorem idList_step (s : Session) (st : Step) (hwf : s.WF) :
    ∀ id ∈ idList (step s st), id ∈ idList s ++ issued [st] := by
  cases st with
  | start now ssid r =>
    intro id hid
    have : idList (step s (.start now ssid r)) = idList s ++ [ssid] :=
      idList_Start s now ssid r hwf
    rw [this] at hid
    exact hid
  | destroy now r =>
    intro id hid
    have hobjs : (Destroy s now r).1.objs = s.objs := by
      unfold Destroy; split
      · rfl
      · split
        · rfl
        · split <;> rfl
    have hsub : (Destroy s now r).1.list.Sublist s.list := by
      unfold Destroy; split
      · exact List.Sublist.refl _
      · split
        · exact List.Sublist.refl _
        · split
          · exact List.erase_sublist _ _
          · exact List.Sublist.refl _
    have hid' : id ∈ (Destroy s now r).1.list.map
        (fun a => ((Destroy s now r).1.storage a).ssid) := hid
    simp only [Session.storage, hobjs] at hid'
    simp only [issued, List.append_nil]
    exact (hsub.map _).subset hid'
  | sweep now =>
    intro id hid
    have hid' : id ∈ (inspection s now).list.map (fun a => (s.storage a).ssid) := hid
    rw [inspection_list] at hid'
    simp only [issued, List.append_nil]
    exact ((List.dropWhile_sublist _).map _).subset hid'
  | set p key value =>
    intro id hid
    simp only [issued, List.append_nil]
    exact hid
  | delete p key =>
    intro id hid
    have hl : (Storage.Delete s p key).list = s.list := by
      unfold Storage.Delete; split <;> rfl
    have ho : (Storage.Delete s p key).objs = s.objs := by
      unfold Storage.Delete; split <;> rfl
    have hid' : id ∈ (Storage.Delete s p key).list.map
        (fun a => ((Storage.Delete s p key).storage a).ssid) := hid
    simp only [Session.storage, hl, ho] at hid'
    simp only [issued, List.append_nil]
    exact hid'

theorem idList_run_subset (steps : List Step) (s : Session) (seen : List String)
    (hwf : s.WF) (hseen : ∀ id ∈ idList s, id ∈ seen) :
    ∀ id ∈ idList (run s steps), id ∈ seen ++ issued steps := by
  induction steps generalizing s seen with
  | nil => intro id hid; simpa [issued] using hseen id hid
  | cons st steps ih =>
    intro id hid
    have hstep : ∀ id ∈ idList (step s st), id ∈ seen ++ issued [st] := by
      intro x hx
      rcases List.mem_append.mp (idList_step s st hwf x hx) with h | h
      · exact List.mem_append_left _ (hseen x h)
      · exact List.mem_append_right _ h
    have := ih (step s st) (seen ++ issued [st]) (WF_step s st hwf) hstep id hid
    have happ : issued (st :: steps) = issued [st] ++ issued steps :=
      issued_append [st] steps
    rw [happ, ← List.append_assoc]
    exact this

/-- When the generator never repeats an id, every id it produces is different
from the ids in the registry at that moment. -/
theorem freshRun_of_issued_nodup (steps : List Step) (s : Session) (seen : List String)
    (hwf : s.WF) (hseen : ∀ id ∈ idList s, id ∈ seen)
    (hnd : (seen ++ issued steps).Nodup) : freshRun s steps := by
  induction steps generalizing s seen with
  | nil => trivial
  | cons st steps ih =>
    have happ : issued (st :: steps) = issued [st] ++ issued steps :=
      issued_append [st] steps
    have hstep : ∀ id ∈ idList (step s st), id ∈ seen ++ issued [st] := by
      intro x hx
      rcases List.mem_append.mp (idList_step s st hwf x hx) with h | h
      · exact List.mem_append_left _ (hseen x h)
      · exact List.mem_append_right _ h
    have hnd' : ((seen ++ issued [st]) ++ issued steps).Nodup := by
      rw [List.append_assoc, ← happ]
      exact hnd
    have hrest := ih (step s st) (seen ++ issued [st]) (WF_step s st hwf) hstep hnd'
    cases st with
    | start now ssid r =>
      refine ⟨?_, hrest⟩
      intro hmem
      have h1 : ssid ∈ seen := hseen ssid hmem
      have h2 : ssid ∈ issued (Step.start now ssid r :: steps) := by
        simp [issued]
      exact (List.nodup_append.mp hnd).2.2 h1 h2
    | destroy now r => exact hrest
    | sweep now => exact hrest
    | set p key value => exact hrest
    | delete p key => exact hrest

/-! ## Eviction when the deadline fits in 64 bits -/

/-- An entry with non-negative `Access`, under a non-negative max-age whose sum
with it stays below `2^63`, is removed by a sweep pass only after its
deadline. -/
theorem eviction_only_after_deadline_in_range (s : Session) (now : Int) (a : Nat)
    (ha : a ∈ s.list) (hacc : 0 ≤ (s.storage a).Access) (hmax : 0 ≤ s.maxage)
    (hrange : (s.storage a).Access + s.maxage < 2 ^ 63)
    (hgone : a ∉ (inspection s now).list) : (s.storage a).Access + s.maxage < now := by
  have hexp : accesstime s a < now := by
    by_contra hnot
    apply hgone
    rw [inspection_list]
    exact mem_dropWhile_of_not _ _ a ha (by simpa using hnot)
  unfold accesstime at hexp
  rwa [wrapInt64_of_range _ (by norm_num; omega) hrange] at hexp

/-! ## What `http.SetCookie` does with an escaped id -/

/-- A character `url.QueryEscape` keeps is a valid cookie value byte and neither
a space nor a comma. -/
theorem kept_char_cookie_safe (c : Char) (h1 : c.toNat < 128) (h2 : shouldEscape c = false) :
    validCookieValueByte c = true ∧ c ≠ ' ' ∧ c ≠ ',' := by
  have key : ∀ n, n < 128 → shouldEscape (Char.ofNat n) = false →
      validCookieValueByte (Char.ofNat n) = true ∧ Char.ofNat n ≠ ' ' ∧ Char.ofNat n ≠ ',' := by
    decide
  have := key c.toNat h1
  rw [Char.ofNat_toNat] at this
  exact this h2

theorem upperhex_cookie_safe (n : Nat) :
    validCookieValueByte (upperhex n) = true ∧ upperhex n ≠ ' ' ∧ upperhex n ≠ ',' := by
  by_cases h : n < 16
  · have key : ∀ m, m < 16 →
        validCookieValueByte (upperhex m) = true ∧ upperhex m ≠ ' ' ∧ upperhex m ≠ ',' := by
      decide
    exact key n h
  · have : upperhex n = '0' := by
      unfold upperhex
      exact List.getD_eq_default _ _ (by simp [String.toList]; omega)
    rw [this]
    decide

theorem escapeChar_cookie_safe (c : Char) :
    ∀ d ∈ escapeChar c, validCookieValueByte d = true ∧ d ≠ ' ' ∧ d ≠ ',' := by
  intro d hd
  unfold escapeChar at hd
  split at hd
  · rw [List.mem_singleton] at hd
    subst hd
    decide
  · split at hd
    · rename_i hkeep
      rw [List.mem_singleton] at hd
      subst hd
      exact kept_char_cookie_safe d hkeep.1 hkeep.2
    · obtain ⟨b, -, hb⟩ := List.mem_flatMap.mp hd
      simp only [List.mem_cons, List.mem_singleton, List.not_mem_nil, or_false] at hb
      rcases hb with rfl | rfl | rfl
      · decide
      · exact upperhex_cookie_safe _
      · exact upperhex_cookie_safe _

/-- The value `Start` gives its cookie passes `sanitizeCookieValue` unchanged. -/
theorem sanitizeCookieValue_QueryEscape (x : String) :
    sanitizeCookieValue (QueryEscape x) = QueryEscape x := by
  have hsafe : ∀ d ∈ x.toList.flatMap escapeChar,
      validCookieValueByte d = true ∧ d ≠ ' ' ∧ d ≠ ',' := by
    intro d hd
    obtain ⟨c, -, hc⟩ := List.mem_flatMap.mp hd
    exact escapeChar_cookie_safe c d hc
  have hfilter : (x.toList.flatMap escapeChar).filter validCookieValueByte
      = x.toList.flatMap escapeChar :=
    List.filter_eq_self.mpr (fun d hd => (hsafe d hd).1)
  have hspace : (x.toList.flatMap escapeChar).contains ' ' = false := by
    rw [Bool.eq_false_iff]
    intro h
    rw [List.contains_iff_exists_mem_beq] at h
    obtain ⟨d, hd, hbeq⟩ := h
    have hd' : ' ' = d := by simpa using hbeq
    exact (hsafe d hd).2.1 hd'.symm
  have hcomma : (x.toList.flatMap escapeChar).contains ',' = false := by
    rw [Bool.eq_false_iff]
    intro h
    rw [List.contains_iff_exists_mem_beq] at h
    obtain ⟨d, hd, hbeq⟩ := h
    have hd' : ',' = d := by simpa using hbeq
    exact (hsafe d hd).2.2 hd'.symm
  have hlist : (QueryEscape x).toList = x.toList.flatMap escapeChar := rfl
  unfold sanitizeCookieValue
  simp only [hlist, hfilter, hspace, hcomma]
  by_cases he : x.toList.flatMap escapeChar = []
  · rw [if_pos he]
    unfold QueryEscape
    rw [he]
  · rw [if_neg he]
    simp [QueryEscape]

theorem Start_cookie (s : Session) (now : Int) (ssid : String) (r : Request) :
    (Start s now ssid r).2.2
      = { Name := s.name, Value := QueryEscape ssid, Path := "/", HttpOnly := true,
          Secure := s.secure, MaxAge := s.maxage, Expires := none } := by
  cases hl : s.lookup r <;> simp [Start, hl]

/-! ## A superseded entry and the sweep: what the code does -/

/-- How far a sweep pass gets. In every registry state `s` reachable from `New`,
a `Start` whose token `v` matched the entry `a` sets the `Access` of `a` to 0, so
that its `accesstime` is the configured max-age, and leaves `a` in the list. The
pass at time `t` takes `a` out of the list exactly when `a` and every entry ahead
of `a` in the list are expired at `t`, and then also deletes the token from the
id map; behind an unexpired entry `a` is not reached. -/
theorem superseded_entry_swept_when_reached (s : Session) (name : String)
    (maxage keep : Int) (secure : Bool) (steps : List Step) (now : Int) (ssid : String)
    (r : Request) (v : String) (a : Nat) (t : Int)
    (hs : s = run (New name maxage keep secure) steps)
    (hc : r.Cookie s.name = some v) (hv : v ≠ "") (hg : mapGet s.data v = some a) :
    ((Start s now ssid r).1.storage a).Access = 0 ∧
    accesstime (Start s now ssid r).1 a = wrapInt64 s.maxage ∧
    a ∈ (Start s now ssid r).1.list ∧
    (a ∉ (inspection (Start s now ssid r).1 t).list ↔
      (∀ b ∈ (Start s now ssid r).1.list.takeWhile (fun b => decide (b ≠ a)),
          accesstime (Start s now ssid r).1 b < t) ∧
        accesstime (Start s now ssid r).1 a < t) ∧
    (a ∉ (inspection (Start s now ssid r).1 t).list →
      mapGet (inspection (Start s now ssid r).1 t).data v = none) := by
  have hwf : s.WF := by rw [hs]; exact WF_run _ steps (WF_New name maxage keep secure)
  have hwf1 : (Start s now ssid r).1.WF := WF_Start s now ssid r hwf
  obtain ⟨hal, halt, hid⟩ := WF_addr_lt s hwf v a hg
  have hl : s.lookup r = some a := by rw [lookup_eq_of_cookie s r v hc hv, hg]
  have hst : (Start s now ssid r).1.storage a = { s.storage a with Access := 0 } := by
    rw [Start_storage_old s now ssid r a halt, if_pos hl]
  have hmem : a ∈ (Start s now ssid r).1.list := by
    rw [Start_list]; exact List.mem_append_left _ hal
  refine ⟨by rw [hst], ?_, hmem, ?_, ?_⟩
  · simp [accesstime, hst, Start_maxage]
  · rw [inspection_list, not_mem_dropWhile_iff _ _ a hwf1.1 hmem]
    simp
  · intro hgone
    have htake : a ∈ (Start s now ssid r).1.list.takeWhile
        (fun b => decide (accesstime (Start s now ssid r).1 b < t)) := by
      have h := hmem
      rw [← List.takeWhile_append_dropWhile
        (fun b => decide (accesstime (Start s now ssid r).1 b < t))
        (Start s now ssid r).1.list] at h
      rcases List.mem_append.mp h with h | h
      · exact h
      · rw [inspection_list] at hgone
        exact absurd h hgone
    have hgone' := foldl_mapDelete_gone (Start s now ssid r).1 _
      (Start s now ssid r).1.data a htake
    rw [hst] at hgone'
    rw [inspection_data]
    rw [← hid]
    exact hgone'

/-- The hypotheses of `superseded_entry_swept_when_reached` hold at `twoClients`,
whose entry at address 1 is superseded. -/
theorem superseded_entry_swept_when_reached_example :
    twoClients = run (New "" 1000 60 false)
      [.start 1700000000 idA noCookie, .start 1700000000 idB noCookie] ∧
    (withCookie idB).Cookie twoClients.name = some idB ∧ idB ≠ "" ∧
    mapGet twoClients.data idB = some 1 ∧
    (twoClientsRotated.storage 1).Access = 0 :=
  ⟨rfl, by decide, by decide, by decide,
    (superseded_entry_swept_when_reached twoClients "" 1000 60 false
      [.start 1700000000 idA noCookie, .start 1700000000 idB noCookie]
      1700000001 idC (withCookie idB) idB 1 1700000060 rfl
      (by decide) (by decide) (by decide)).1⟩

/-- What is left of the order. In every registry state reachable from `New` by
`Start`, `Destroy`, sweep and handler steps taken with a non-decreasing clock,
the `Access` fields along the list that are not 0 (the value rotation writes
into a superseded entry) are non-decreasing from head to tail. -/
theorem live_access_nondecreasing (name : String) (maxage keep : Int) (secure : Bool)
    (steps : List Step) (hclock : (clock steps).Pairwise (· ≤ ·)) :
    (liveAccessList (run (New name maxage keep secure) steps)).Pairwise (· ≤ ·) := by
  cases hsteps : clock steps with
  | nil =>
    have h0 : (New name maxage keep secure).ordered 0 :=
      ⟨WF_New name maxage keep secure, by simp [liveAccessList, accessList, New],
        by simp [liveAccessList, accessList, New]⟩
    obtain ⟨t', h⟩ := ordered_run steps _ 0 h0 hclock (by simp [hsteps])
    exact h.2.1
  | cons x xs =>
    have h0 : (New name maxage keep secure).ordered x :=
      ⟨WF_New name maxage keep secure, by simp [liveAccessList, accessList, New],
        by simp [liveAccessList, accessList, New]⟩
    have hfrom : ∀ y ∈ clock steps, x ≤ y := by
      rw [hsteps] at hclock ⊢
      intro y hy
      rcases List.mem_cons.mp hy with rfl | hy
      · exact le_refl _
      · exact (List.pairwise_cons.mp hclock).1 y hy
    obtain ⟨t', h⟩ := ordered_run steps _ x h0 hclock hfrom
    exact h.2.1

/-- The hypothesis of `live_access_nondecreasing` holds at the run that leads to
`twoClientsRotated`. -/
theorem live_access_nondecreasing_example :
    (clock [.start 1700000000 idA noCookie, .start 1700000000 idB noCookie,
        .start 1700000001 idC (withCookie idB)]).Pairwise (· ≤ ·) ∧
    (liveAccessList (run (New "" 1000 60 false)
      [.start 1700000000 idA noCookie, .start 1700000000 idB noCookie,
        .start 1700000001 idC (withCookie idB)])).Pairwise (· ≤ ·) :=
  ⟨by decide, live_access_nondecreasing "" 1000 60 false _ (by decide)⟩

/-! ## The ids in a run whose generator does not repeat itself -/

/-- What `Start` does with the generator's output: it returns an entry whose id
is the string the generator produced for the call, and checks nothing. In a run
from `New` in which the generator happens never to repeat an id, no two entries
of the registry share an id, every id in the registry is one the generator
issued, and the id of each `Start` is in the registry neither then nor
before. -/
theorem issued_ids_distinct_when_generator_fresh (name : String) (maxage keep : Int)
    (secure : Bool) (steps : List Step) (hgen : (issued steps).Nodup) :
    (idList (run (New name maxage keep secure) steps)).Nodup ∧
    (∀ id ∈ idList (run (New name maxage keep secure) steps), id ∈ issued steps) ∧
    (∀ (pre post : List Step) (now : Int) (ssid : String) (r : Request),
      steps = pre ++ Step.start now ssid r :: post →
      Storage.SessionID (Start (run (New name maxage keep secure) pre) now ssid r).1
          (Start (run (New name maxage keep secure) pre) now ssid r).2.1 = ssid ∧
      ssid ∉ issued pre ∧
      ssid ∉ idList (run (New name maxage keep secure) pre)) := by
  have hwf0 := WF_New name maxage keep secure
  have hseen0 : ∀ id ∈ idList (New name maxage keep secure), id ∈ ([] : List String) := by
    intro id hid
    simp [idList, New] at hid
  have hfresh : freshRun (New name maxage keep secure) steps :=
    freshRun_of_issued_nodup steps _ [] hwf0 hseen0 (by simpa using hgen)
  have hcons := consistent_run steps _ (consistent_New name maxage keep secure) hfresh
  refine ⟨hcons.2.1, ?_, ?_⟩
  · intro id hid
    simpa using idList_run_subset steps _ [] hwf0 hseen0 id hid
  · intro pre post now ssid r hsplit
    have hiss : issued steps = issued pre ++ ssid :: issued post := by
      rw [hsplit, issued_append]
      rfl
    rw [hiss] at hgen
    have hnot : ssid ∉ issued pre := by
      intro hmem
      exact (List.nodup_append.mp hgen).2.2 hmem (List.mem_cons_self _ _)
    refine ⟨?_, hnot, ?_⟩
    · rw [Start_handle]
      exact (Start_storage_new _ now ssid r).2
    · intro hmem
      apply hnot
      simpa using idList_run_subset pre _ [] hwf0 hseen0 ssid hmem

/-- The hypothesis of `issued_ids_distinct_when_generator_fresh` holds at the run
`busyRun`, whose three ids are distinct. -/
theorem issued_ids_distinct_when_generator_fresh_example :
    (issued busyRun).Nodup ∧
    (idList (run (New "" 2 1 false) busyRun)).Nodup ∧
    idC ∉ issued [.start 1700000000 idA noCookie, .start 1700000001 idB (withCookie idA),
      .sweep 1700000003] :=
  ⟨by decide,
    (issued_ids_distinct_when_generator_fresh "" 2 1 false busyRun (by decide)).1,
    ((issued_ids_distinct_when_generator_fresh "" 2 1 false busyRun (by decide)).2.2
      [.start 1700000000 idA noCookie, .start 1700000001 idB (withCookie idA),
        .sweep 1700000003]
      [.destroy 1700000005 (withCookie idC)] 1700000004 idC noCookie rfl).2.1⟩

/-! ## C1: the entry returned by `Start` carries the prior data -/

/-- C1. For every registry state and request, the storage returned by `Start`
has the generated id; when the request's session cookie is non-empty and is a
key of the id map, its `Values` is the very map of the entry found (same
reference, same contents); when the cookie is missing, empty or matches no
entry, its `Values` is empty. -/
theorem Start_carries_prior_values (s : Session) (now : Int) (ssid : String) (r : Request) :
    Storage.SessionID (Start s now ssid r).1 (Start s now ssid r).2.1 = ssid ∧
    (∀ v a, r.Cookie s.name = some v → v ≠ "" → mapGet s.data v = some a →
      ((Start s now ssid r).1.storage (Start s now ssid r).2.1).Values
          = (s.storage a).Values ∧
      (Start s now ssid r).1.values (Start s now ssid r).2.1 = s.values a) ∧
    ((r.Cookie s.name = none ∨ r.Cookie s.name = some "" ∨
        ∃ v, r.Cookie s.name = some v ∧ mapGet s.data v = none) →
      (Start s now ssid r).1.values (Start s now ssid r).2.1 = []) := by
  refine ⟨?_, ?_, ?_⟩
  · cases hl : s.lookup r <;> simp [Start, hl, Storage.SessionID, Session.storage]
  · intro v a hc hv hg
    have hl : s.lookup r = some a := by simp [Session.lookup, hc, hv, hg]
    have hobj : ((Start s now ssid r).1.storage (Start s now ssid r).2.1).Values
        = (s.storage a).Values := by
      simp [Start, hl, Session.storage]
    refine ⟨hobj, ?_⟩
    unfold Session.values
    rw [hobj]
    simp only [Start, hl]
    exact maps_alloc_read s.maps _
  · intro h
    have hl : s.lookup r = none := by
      rcases h with h | h | ⟨v, h, hg⟩
      · simp [Session.lookup, h]
      · simp [Session.lookup, h]
      · by_cases hv : v = "" <;> simp [Session.lookup, h, hv, hg]
    simp [Start, hl, Session.values, Session.storage]

/-! ## C2: the superseded token after a rotation -/

/-- C2, as stated, fails. In `visited` the token `idA` matches the entry at
address 0, which holds `INT = 3`; a `Start` presenting `idA` rotates it. A
subsequent `Start` presenting `idA` again still finds that entry in the id map
and returns an entry whose `Values` is not empty. -/
theorem superseded_token_still_resolves :
    visited.lookup (withCookie idA) = some 0 ∧
    rotated.lookup (withCookie idA) = some 0 ∧
    (Start rotated 1700000002 idC (withCookie idA)).1.values
        (Start rotated 1700000002 idC (withCookie idA)).2.1 = [("INT", .int 3)] := by
  decide

/-- C2, amended. When `Start` is called with a token `v` that matches an entry,
`v` stays resolvable: any subsequent `Start` whose request carries `v` finds a
matching entry and returns an entry that shares the `Values` map of the
superseded entry (the same reference, with the contents of the entry the first
`Start` returned). Only once a sweep pass has deleted `v` from the id map does a
`Start` carrying `v` return empty `Values`. -/
theorem superseded_token_resolves_until_swept (s : Session) (now : Int) (ssid : String)
    (r : Request) (v : String) (a : Nat)
    (hc : r.Cookie s.name = some v) (hv : v ≠ "") (hg : mapGet s.data v = some a) :
    (∀ (now2 : Int) (ssid2 : String) (r2 : Request), r2.Cookie s.name = some v →
      (∃ a', (Start s now ssid r).1.lookup r2 = some a') ∧
      ((Start (Start s now ssid r).1 now2 ssid2 r2).1.storage
          (Start (Start s now ssid r).1 now2 ssid2 r2).2.1).Values = (s.storage a).Values ∧
      (Start (Start s now ssid r).1 now2 ssid2 r2).1.values
          (Start (Start s now ssid r).1 now2 ssid2 r2).2.1
        = (Start s now ssid r).1.values (Start s now ssid r).2.1) ∧
    (∀ (t now2 : Int) (ssid2 : String) (r2 : Request), r2.Cookie s.name = some v →
      mapGet (inspection (Start s now ssid r).1 t).data v = none →
      (Start (inspection (Start s now ssid r).1 t) now2 ssid2 r2).1.values
          (Start (inspection (Start s now ssid r).1 t) now2 ssid2 r2).2.1 = []) := by
  have hl : s.lookup r = some a := by rw [lookup_eq_of_cookie s r v hc hv, hg]
  obtain ⟨a', hd, hval⟩ := Start_keeps_token s now ssid r v a hc hv hg
  have hfirst := Start_returned_ref s now ssid r a hl
  constructor
  · intro now2 ssid2 r2 hc2
    have hc2' : r2.Cookie (Start s now ssid r).1.name = some v := by rw [Start_name]; exact hc2
    have hl2 : (Start s now ssid r).1.lookup r2 = some a' := by
      rw [lookup_eq_of_cookie _ r2 v hc2' hv, hd]
    have hsecond : ((Start (Start s now ssid r).1 now2 ssid2 r2).1.storage
        (Start (Start s now ssid r).1 now2 ssid2 r2).2.1).Values = (s.storage a).Values := by
      rw [← hval]
      exact Start_returned_ref _ now2 ssid2 r2 a' hl2
    refine ⟨⟨a', hl2⟩, hsecond, ?_⟩
    rw [Start_returned_values, hl2]
    simp only [Session.values]
    rw [hval, hfirst]
  · intro t now2 ssid2 r2 hc2 hgone
    have hc2' : r2.Cookie (inspection (Start s now ssid r).1 t).name = some v := by
      show r2.Cookie (Start s now ssid r).1.name = some v
      rw [Start_name]; exact hc2
    have hl2 : (inspection (Start s now ssid r).1 t).lookup r2 = none := by
      rw [lookup_eq_of_cookie _ r2 v hc2' hv, hgone]
    rw [Start_returned_values, hl2]

/-- The amended C2 at the registry `visited`, rotated with the token `idA`. -/
theorem superseded_token_resolves_until_swept_witness :
    (withCookie idA).Cookie visited.name = some idA ∧ idA ≠ "" ∧
    mapGet visited.data idA = some 0 ∧
    (Start rotated 1700000002 idC (withCookie idA)).1.values
        (Start rotated 1700000002 idC (withCookie idA)).2.1
      = rotated.values (Start visited 1700000001 idB (withCookie idA)).2.1 :=
  ⟨by decide, by decide, by decide,
    ((superseded_token_resolves_until_swept visited 1700000001 idB (withCookie idA) idA 0
      (by decide) (by decide) (by decide)).1 1700000002 idC (withCookie idA) (by decide)).2.2⟩

/-! ## C3: the superseded entry and the next sweep -/

/-- C3 fails on the code. In the reachable registry `twoClients` the token `idB`
matches the entry at address 1, and `Start` supersedes it: its `Access` is set
to 0, so at the next sweep pass, sixty seconds later, its `accesstime` (1000) is
below the sweep time. The pass stops at the head, which is not expired, and the
superseded entry stays in the list and in the id map. -/
theorem superseded_entry_survives_next_sweep :
    twoClients = run (New "" 1000 60 false)
      [.start 1700000000 idA noCookie, .start 1700000000 idB noCookie] ∧
    twoClients.lookup (withCookie idB) = some 1 ∧
    (twoClientsRotated.storage 1).Access = 0 ∧
    accesstime twoClientsRotated 1 = 1000 ∧
    accesstime twoClientsRotated 1 < 1700000060 ∧
    ¬ accesstime twoClientsRotated 0 < 1700000060 ∧
    (inspection twoClientsRotated 1700000060).list = [0, 1, 2] ∧
    mapGet (inspection twoClientsRotated 1700000060).data idB = some 1 := by
  refine ⟨rfl, ?_, ?_, ?_, ?_, ?_, ?_, ?_⟩ <;> decide

/-! ## C4: the order of the list -/

/-- C4 fails on the code. `twoClientsRotated` is reached from `New` by three
`Start` steps with the non-decreasing clock readings 1700000000, 1700000000,
1700000001, the last one a rotation; its list holds the `Access` values
1700000000, 0, 1700000001, which are not non-decreasing. -/
theorem rotation_breaks_access_order :
    twoClientsRotated = run (New "" 1000 60 false)
      [.start 1700000000 idA noCookie, .start 1700000000 idB noCookie,
        .start 1700000001 idC (withCookie idB)] ∧
    (clock [.start 1700000000 idA noCookie, .start 1700000000 idB noCookie,
        .start 1700000001 idC (withCookie idB)]).Pairwise (· ≤ ·) ∧
    accessList twoClientsRotated = [1700000000, 0, 1700000001] ∧
    ¬ (accessList twoClientsRotated).Pairwise (· ≤ ·) := by
  refine ⟨rfl, by decide, by decide, by decide⟩

/-! ## C5: what one sweep pass removes -/

/-- C5. For every registry and time `now`, one pass of `inspection` removes
exactly the longest run of entries at the front of the list whose computed
`accesstime` (`Access + int64(maxage)`) is strictly below `now`: the list that
remains is the old list without that run, the id map is the old one with the
ids of the removed entries deleted, the head that remains (if any) is not
expired, an entry whose `accesstime` equals `now` stays, and no storage and no
map is written. -/
theorem inspection_removes_expired_front (s : Session) (now : Int) :
    s.list = s.list.takeWhile (fun a => decide (accesstime s a < now))
              ++ (inspection s now).list ∧
    (∀ a ∈ s.list.takeWhile (fun a => decide (accesstime s a < now)),
      accesstime s a < now) ∧
    (∀ b, (inspection s now).list.head? = some b → now ≤ accesstime s b) ∧
    (inspection s now).data
      = (s.list.takeWhile (fun a => decide (accesstime s a < now))).foldl
          (fun d a => mapDelete d (s.storage a).ssid) s.data ∧
    (∀ a ∈ s.list, accesstime s a = now → a ∈ (inspection s now).list) ∧
    (inspection s now).objs = s.objs ∧ (inspection s now).maps = s.maps := by
  have htake : ∀ a ∈ s.list.takeWhile (fun a => decide (accesstime s a < now)),
      accesstime s a < now := by
    intro a ha
    simpa using List.mem_takeWhile_imp ha
  refine ⟨?_, htake, ?_, inspection_data s now, ?_, rfl, rfl⟩
  · rw [inspection_list, List.takeWhile_append_dropWhile]
  · exact inspectionLoop_head s now s.list s.data
  · intro a ha heq
    rw [inspection_list]
    rw [← List.takeWhile_append_dropWhile (fun a => decide (accesstime s a < now)) s.list] at ha
    rcases List.mem_append.mp ha with h | h
    · exact absurd (htake a h) (by omega)
    · exact h

/-! ## C6: early exit on a list ordered by `Access` -/

/-- C6 fails on the code when `Access + int64(maxage)` leaves the 64-bit range.
In `neverExpire` (max-age `math.MaxInt64`) the list is ordered and the only
entry is not expired, its deadline being far ahead of the sweep time, yet the
pass removes it from the list and the id map. In `straddling` the list is
ordered, the pass stops at the unexpired head, and the entry left behind it has
a computed `accesstime` below the sweep time. -/
theorem sweep_deadline_wraps :
    (accessList neverExpire).Pairwise (· ≤ ·) ∧
    1700000060 ≤ (neverExpire.storage 0).Access + neverExpire.maxage ∧
    neverExpire.list = [0] ∧ mapGet neverExpire.data idA = some 0 ∧
    (inspection neverExpire 1700000060).list = [] ∧
    mapGet (inspection neverExpire 1700000060).data idA = none ∧
    (accessList straddling).Pairwise (· ≤ ·) ∧
    (inspection straddling 1700000200).list = [0, 1] ∧
    accesstime straddling 1 < 1700000200 := by
  decide

/-! ## C7: the sweep is idempotent -/

/-- C7. For every registry and time `now`, a second `inspection` at the same
`now` changes nothing, and `inspection` leaves a registry whose list is empty
or whose head entry is not expired exactly as it was. -/
theorem inspection_idempotent (s : Session) (now : Int) :
    inspection (inspection s now) now = inspection s now ∧
    ((∀ a, s.list.head? = some a → now ≤ accesstime s a) → inspection s now = s) := by
  have key : ∀ s' : Session, (∀ a, s'.list.head? = some a → now ≤ accesstime s' a) →
      inspection s' now = s' := by
    intro s' h
    unfold inspection
    rw [inspectionLoop_fixed s' now s'.list s'.data h]
  refine ⟨key _ ?_, key s⟩
  intro a ha
  rw [inspection_accesstime]
  exact inspectionLoop_head s now s.list s.data a ha

/-! ## C8: `Destroy` removes the presented entry and nothing else -/

/-- C8. For every well-formed registry and every request whose session cookie
is non-empty and is the id of an entry (the id map sends it to the element
`a`), `Destroy` at once deletes that id from the id map and unlinks `a` from the
list, and changes nothing else: every other key keeps its binding, the list is
the old one with `a` taken out (the other elements in their order), and no
storage (`Access`) and no map (`Values`) is written. -/
theorem Destroy_removes_only_that_entry (s : Session) (now : Int) (r : Request)
    (v : String) (a : Nat) (hc : r.Cookie s.name = some v) (hv : v ≠ "")
    (hg : mapGet s.data v = some a) (hwf : s.WF) :
    mapGet (Destroy s now r).1.data v = none ∧
    (∀ k, k ≠ v → mapGet (Destroy s now r).1.data k = mapGet s.data k) ∧
    a ∉ (Destroy s now r).1.list ∧
    (∃ pre post, s.list = pre ++ a :: post ∧ (Destroy s now r).1.list = pre ++ post) ∧
    (∀ b ∈ s.list, b ≠ a → b ∈ (Destroy s now r).1.list) ∧
    (Destroy s now r).1.objs = s.objs ∧ (Destroy s now r).1.maps = s.maps := by
  obtain ⟨hnd, -, hdata⟩ := hwf
  have ha : a ∈ s.list := (hdata (v, a) (mapGet_mem s.data v a hg)).1
  rw [Destroy_of_match s now r v a hc hv hg]
  refine ⟨mapGet_mapDelete_self _ _, fun k hk => mapGet_mapDelete_ne _ _ _ hk, ?_, ?_, ?_,
    rfl, rfl⟩
  · exact fun h => (List.Nodup.mem_erase_iff hnd).mp h |>.1 rfl
  · obtain ⟨l₁, l₂, -, h1, h2⟩ := List.exists_erase_eq ha
    exact ⟨l₁, l₂, h1, h2⟩
  · intro b hb hne
    exact (List.mem_erase_of_ne hne).mpr hb

/-- C8 at the registry `rotated`, destroying the session `idB`. -/
theorem Destroy_removes_only_that_entry_witness :
    (withCookie idB).Cookie rotated.name = some idB ∧ idB ≠ "" ∧
    mapGet rotated.data idB = some 1 ∧ rotated.WF ∧
    mapGet (Destroy rotated 1700000005 (withCookie idB)).1.data idB = none ∧
    1 ∉ (Destroy rotated 1700000005 (withCookie idB)).1.list :=
  ⟨by decide, by decide, by decide, by decide,
    (Destroy_removes_only_that_entry rotated 1700000005 (withCookie idB) idB 1
      (by decide) (by decide) (by decide) (by decide)).1,
    (Destroy_removes_only_that_entry rotated 1700000005 (withCookie idB) idB 1
      (by decide) (by decide) (by decide) (by decide)).2.2.1⟩

/-! ## C9: `Destroy` with nothing to remove -/

/-- C9. For every registry, a `Destroy` whose request has no session cookie, an
empty cookie value, or a value that is no key of the id map leaves the whole
registry (id map and list included) unchanged; hence a second `Destroy` with the
same request changes nothing after the first. -/
theorem Destroy_noop_without_match (s : Session) (now : Int) (r : Request) :
    ((r.Cookie s.name = none ∨ r.Cookie s.name = some "" ∨
        ∃ v, r.Cookie s.name = some v ∧ mapGet s.data v = none) →
      (Destroy s now r).1 = s) ∧
    (∀ now2, (Destroy (Destroy s now r).1 now2 r).1 = (Destroy s now r).1) := by
  refine ⟨Destroy_of_no_match s now r, ?_⟩
  intro now2
  cases hc : r.Cookie s.name with
  | none =>
    rw [Destroy_of_no_match s now r (Or.inl hc)]
    exact Destroy_of_no_match s now2 r (Or.inl hc)
  | some v =>
    by_cases hv : v = ""
    · subst hv
      rw [Destroy_of_no_match s now r (Or.inr (Or.inl hc))]
      exact Destroy_of_no_match s now2 r (Or.inr (Or.inl hc))
    · cases hg : mapGet s.data v with
      | none =>
        rw [Destroy_of_no_match s now r (Or.inr (Or.inr ⟨v, hc, hg⟩))]
        exact Destroy_of_no_match s now2 r (Or.inr (Or.inr ⟨v, hc, hg⟩))
      | some a =>
        apply Destroy_of_no_match
        rw [Destroy_of_match s now r v a hc hv hg]
        exact Or.inr (Or.inr ⟨v, hc, mapGet_mapDelete_self _ _⟩)

/-! ## C10: the visit counter survives rotation -/

/-- C10. For every registry and every chain of `k = vs.length + 1` requests of
one client, the first without session cookie and each later one carrying the
cookie value written by the previous `Start`, with ids of the shape
`generateID` returns, the handler `n, _ := Int("INT"); Set("INT", n+1)` run
after each `Start`, any sweep passes in between that leave the current entry
in the id map and no `Destroy`: the value `n+1` computed at the last request is
`k` as a Go `int` (that is `k` itself for every `k` below `2^63`), and it is
stored as `INT` under the final token. -/
theorem visit_counter_survives_rotation (s : Session) (r0 : Request) (v0 : Visit)
    (vs : List Visit) (h0 : r0.Cookie s.name = none) (hid0 : isSessionID v0.ssid)
    (hids : ∀ v ∈ vs, isSessionID v.ssid)
    (hsurv : survives (visit s r0 v0).1 (visit s r0 v0).2.1 vs) :
    (chain s r0 v0 vs).2.2 = wrapInt64 ((vs.length : Int) + 1) ∧
    ((vs.length : Int) + 1 < 2 ^ 63 → (chain s r0 v0 vs).2.2 = (vs.length : Int) + 1) ∧
    counted (chain s r0 v0 vs).1 (chain s r0 v0 vs).2.1 (chain s r0 v0 vs).2.2 := by
  obtain ⟨h1, h2, -⟩ := visit_first s r0 v0 h0 hid0
  obtain ⟨hc, hval⟩ := visits_count vs _ _ 1 h2 hids hsurv
  have hchain : chain s r0 v0 vs = visits (visit s r0 v0).1 (visit s r0 v0).2.1 1 vs := by
    unfold chain
    rw [h1]
  have hvalue : (chain s r0 v0 vs).2.2 = wrapInt64 ((vs.length : Int) + 1) := by
    rw [hchain]
    rcases hval with h | ⟨hnil, h⟩
    · rw [h, add_comm]
    · rw [h, hnil]
      decide
  refine ⟨hvalue, ?_, ?_⟩
  · intro hk
    rw [hvalue]
    exact wrapInt64_of_range _ (by have := Int.natCast_nonneg vs.length; omega) hk
  · rw [hchain]
    exact hc

/-- C10 at three requests on a fresh registry with max-age 2, the second and
the third preceded by a sweep pass (the pass before the third request evicts
the entry superseded by the second): the third request computes 3. -/
theorem visit_counter_survives_rotation_witness :
    noCookie.Cookie (New "" 2 1 false).name = none ∧ isSessionID idA ∧
    (∀ v ∈ [(⟨[1700000001], 1700000001, idB⟩ : Visit), ⟨[1700000002], 1700000002, idC⟩],
      isSessionID v.ssid) ∧
    survives (visit (New "" 2 1 false) noCookie ⟨[], 1700000000, idA⟩).1
      (visit (New "" 2 1 false) noCookie ⟨[], 1700000000, idA⟩).2.1
      [⟨[1700000001], 1700000001, idB⟩, ⟨[1700000002], 1700000002, idC⟩] ∧
    (chain (New "" 2 1 false) noCookie ⟨[], 1700000000, idA⟩
      [⟨[1700000001], 1700000001, idB⟩, ⟨[1700000002], 1700000002, idC⟩]).2.2 = 3 :=
  ⟨by decide, by decide, by decide, by decide,
    ((visit_counter_survives_rotation (New "" 2 1 false) noCookie ⟨[], 1700000000, idA⟩
      [⟨[1700000001], 1700000001, idB⟩, ⟨[1700000002], 1700000002, idC⟩]
      (by decide) (by decide) (by decide) (by decide)).2.1 (by decide))⟩

/-! ## C11: the ids `Start` returns -/

/-- C11 fails on the code. `generateID` computes the id from its two clock
readings alone, so whatever the generator of `math/rand` and SHA-256 are, two
`Start` calls in a fresh registry whose `generateID` reads the same clock value
return entries with the same id, and the list then holds two entries with that
id under a single key of the id map. -/
theorem equal_clock_readings_repeat_id :
    ¬ ∃ (randomString : Int → String) (sha256hex : String → String),
      Storage.SessionID (secondStart randomString sha256hex).1
          (secondStart randomString sha256hex).2.1
        ≠ Storage.SessionID (firstStart randomString sha256hex).1
          (firstStart randomString sha256hex).2.1 ∨
      (idList (secondStart randomString sha256hex).1).Nodup ∨
      (keyList (secondStart randomString sha256hex).1).length
        = (secondStart randomString sha256hex).1.list.length := by
  rintro ⟨rnd, sha, h⟩
  have hfirst : (firstStart rnd sha).1.lookup noCookie = none := rfl
  have hnew : (New "" 2 1 false).lookup noCookie = none := rfl
  rcases h with h | h | h
  · apply h
    simp [secondStart, firstStart, Start, hnew, hfirst, Storage.SessionID, Session.storage, New,
      Session.lookup, Request.Cookie, noCookie]
  · simp [secondStart, firstStart, Start, hnew, hfirst, idList, Session.storage, New,
      Session.lookup, Request.Cookie, noCookie] at h
  · simp [secondStart, firstStart, Start, hnew, hfirst, keyList, mapSet, mapDelete, New,
      Session.lookup, Request.Cookie, noCookie] at h

/-! ## C12: the cookie `Start` writes -/

/-- C12, as stated, fails. A registry made by `New("my session", 2, 60, false)`
has a name that is not a valid cookie name, and `http.SetCookie` adds no header
for the cookie `Start` passes to it. A registry made with the max-age -5 gets
a header whose `Max-Age` is 0, not the configured max-age. -/
theorem invalid_name_writes_no_cookie :
    SetCookie (Start (New "my session" 2 60 false) 1700000000 idA noCookie).2.2 = none ∧
    (SetCookie (Start (New "" (-5) 60 false) 1700000000 idA noCookie).2.2).map
        SetCookieHeader.MaxAge = some (some 0) ∧
    (New "" (-5) 60 false).maxage = -5 := by
  decide

/-- C12, amended. For every registry whose name is a valid cookie name and every
request, the call of `http.SetCookie` in `Start` adds exactly one header: its
name is the registry's name, its value the URL-escaped id of the returned entry,
its path `/`, with `HttpOnly`, with `Secure` as configured, without `Expires`,
and with `Max-Age` equal to the configured max-age when that is positive (none
when it is 0, `Max-Age=0` when it is negative). For an id of the shape the
generator produces the value is the id itself, and a request presenting the
cookie resolves the returned entry. -/
theorem Start_sets_cookie_for_valid_name (s : Session) (now : Int) (ssid : String)
    (r : Request) (hname : isCookieNameValid s.name = true) :
    SetCookie (Start s now ssid r).2.2
      = some
          { Name := s.name
            Value := QueryEscape (Storage.SessionID (Start s now ssid r).1
              (Start s now ssid r).2.1)
            Path := some "/"
            Expires := none
            MaxAge := if 0 < s.maxage then some s.maxage
                      else if s.maxage < 0 then some 0 else none
            HttpOnly := true
            Secure := s.secure } ∧
    (0 < s.maxage →
      (SetCookie (Start s now ssid r).2.2).map SetCookieHeader.MaxAge
        = some (some s.maxage)) ∧
    (isSessionID ssid →
      (SetCookie (Start s now ssid r).2.2).map SetCookieHeader.Value
        = some (Storage.SessionID (Start s now ssid r).1 (Start s now ssid r).2.1) ∧
      (Start s now ssid r).1.lookup ⟨[(s.name, ssid)]⟩ = some (Start s now ssid r).2.1) := by
  have hid : Storage.SessionID (Start s now ssid r).1 (Start s now ssid r).2.1 = ssid := by
    rw [Start_handle]
    exact (Start_storage_new s now ssid r).2
  have hpath : sanitizeCookiePath "/" = "/" := by decide
  have hset : SetCookie (Start s now ssid r).2.2
      = some
          { Name := s.name, Value := QueryEscape ssid, Path := some "/", Expires := none
            MaxAge := if 0 < s.maxage then some s.maxage
                      else if s.maxage < 0 then some 0 else none
            HttpOnly := true, Secure := s.secure } := by
    rw [Start_cookie]
    unfold SetCookie
    simp only []
    rw [if_pos hname, sanitizeCookieValue_QueryEscape, hpath]
    simp
  refine ⟨by rw [hid]; exact hset, ?_, ?_⟩
  · intro hpos
    rw [hset]
    simp [hpos]
  · intro hhex
    obtain ⟨hesc, hne⟩ := QueryEscape_sessionID ssid hhex
    rw [hset, hid]
    refine ⟨by simp [hesc], ?_⟩
    rw [lookup_eq_of_cookie _ _ ssid (by simp [Request.Cookie, Start_name]) hne,
      Start_data, Start_handle, mapGet_mapSet_self]

/-- The amended C12 at a fresh registry with the default name and max-age 2:
the header carries `Max-Age=2` and the id `idA`. -/
theorem Start_sets_cookie_for_valid_name_witness :
    isCookieNameValid (New "" 2 60 false).name = true ∧
    (SetCookie (Start (New "" 2 60 false) 1700000000 idA noCookie).2.2).map
        SetCookieHeader.MaxAge = some (some 2) :=
  ⟨by decide,
    (Start_sets_cookie_for_valid_name (New "" 2 60 false) 1700000000 idA noCookie
      (by decide)).2.1 (by decide)⟩

/-! ## C13: `New` normalises its configuration -/

/-- C13. For all `name`, `maxage`, `keep`, `secure`, the registry `New` builds
has name `"noname"` when `name` is empty and `name` otherwise, sweep interval 60
when `keep <= 0` and `keep` otherwise, `maxage` and `secure` as given, path `/`,
an empty id map and an empty list; and `New` returns it (the ticker interval
`keeptime * time.Second` is positive) for every `keep` up to 9223372036. -/
theorem New_normalises (name : String) (maxage keep : Int) (secure : Bool) :
    (New name maxage keep secure).name = (if name = "" then "noname" else name) ∧
    (New name maxage keep secure).keeptime = (if keep ≤ 0 then 60 else keep) ∧
    (New name maxage keep secure).maxage = maxage ∧
    (New name maxage keep secure).secure = secure ∧
    (New name maxage keep secure).path = "/" ∧
    (New name maxage keep secure).data = [] ∧
    (New name maxage keep secure).list = [] ∧
    (keep ≤ 9223372036 → NewReturns name maxage keep secure) := by
  refine ⟨rfl, rfl, rfl, rfl, rfl, rfl, rfl, ?_⟩
  intro hk
  unfold NewReturns tickerInterval
  have hkt : (New name maxage keep secure).keeptime = (if keep ≤ 0 then 60 else keep) := rfl
  rw [hkt]
  split
  · decide
  · rw [wrapInt64_of_range _ (by norm_num; omega) (by norm_num; omega)]
    omega

/-! ## C14: the integer reader -/

/-- C14. For every entry and every key present in its `Values`: if the stored
value is a native `int` `n`, `Int` returns `(n, nil)`; otherwise, with `s` the
`fmt.Sprint` form of the stored value, `Int` returns `(n, nil)` when
`strconv.Atoi` parses `s` as `n`, and `0` with the error `not number` when it
does not. The strings `"100"` and `"100Z"` parse as 100 and not at all. -/
theorem Int_lenient (s : Session) (p : Nat) (key : String) (v : Value)
    (hv : mapGet (s.values p) key = some v) :
    (∀ n, v = .int n → Storage.Int s p key = (n, none)) ∧
    ((∀ n, v ≠ .int n) → ∀ n, Atoi (Sprint v) = some n → Storage.Int s p key = (n, none)) ∧
    ((∀ n, v ≠ .int n) → Atoi (Sprint v) = none →
      Storage.Int s p key = (0, some ("'" ++ key ++ "' - not number"))) ∧
    Atoi (Sprint (.str "100")) = some 100 ∧ Atoi (Sprint (.str "100Z")) = none := by
  refine ⟨?_, ?_, ?_, by decide, by decide⟩
  · intro n hn
    subst hn
    exact Storage_Int_of_int s p key n hv
  · intro hne n hn
    cases v with
    | int m => exact absurd rfl (hne m)
    | str x => simp [Storage.Int, Storage.Get, hv, hn]
    | bool b => simp [Storage.Int, Storage.Get, hv, hn]
    | other x => simp [Storage.Int, Storage.Get, hv, hn]
  · intro hne hn
    cases v with
    | int m => exact absurd rfl (hne m)
    | str x => simp [Storage.Int, Storage.Get, hv, hn]
    | bool b => simp [Storage.Int, Storage.Get, hv, hn]
    | other x => simp [Storage.Int, Storage.Get, hv, hn]

/-- C14 on the storage of `Test__STORAGE_INT` after `Set("INT", "100")`: the
reader returns 100. -/
theorem Int_lenient_witness :
    mapGet ((Storage.Set loneStorage 0 "INT" (.str "100")).values 0) "INT"
      = some (.str "100") ∧
    Storage.Int (Storage.Set loneStorage 0 "INT" (.str "100")) 0 "INT" = (100, none) :=
  ⟨by decide,
    (Int_lenient (Storage.Set loneStorage 0 "INT" (.str "100")) 0 "INT" (.str "100")
      (by decide)).2.1 (by intro n h; cases h) 100 (by decide)⟩

/-! ## C15: the boolean reader -/

/-- C15. For every entry and key, `Bool` returns no error if and only if the key
is present with a stored value of type `bool`, and then returns that boolean;
for a present value of any other type, the string `"true"` included, it returns
`false` and the error `not boolean`. -/
theorem Bool_strict (s : Session) (p : Nat) (key : String) :
    ((Storage.Bool s p key).2 = none ↔ ∃ b, mapGet (s.values p) key = some (.bool b)) ∧
    (∀ b, mapGet (s.values p) key = some (.bool b) → Storage.Bool s p key = (b, none)) ∧
    (∀ v, mapGet (s.values p) key = some v → (∀ b, v ≠ .bool b) →
      Storage.Bool s p key = (false, some ("'" ++ key ++ "' - not boolean"))) ∧
    (mapGet (s.values p) key = some (.str "true") →
      Storage.Bool s p key = (false, some ("'" ++ key ++ "' - not boolean"))) := by
  have hother : ∀ v, mapGet (s.values p) key = some v → (∀ b, v ≠ .bool b) →
      Storage.Bool s p key = (false, some ("'" ++ key ++ "' - not boolean")) := by
    intro v hv hne
    cases v with
    | bool b => exact absurd rfl (hne b)
    | int n => simp [Storage.Bool, Storage.Get, hv]
    | str x => simp [Storage.Bool, Storage.Get, hv]
    | other x => simp [Storage.Bool, Storage.Get, hv]
  have hbool : ∀ b, mapGet (s.values p) key = some (.bool b) →
      Storage.Bool s p key = (b, none) := by
    intro b hb
    simp [Storage.Bool, Storage.Get, hb]
  refine ⟨?_, hbool, hother, fun h => hother _ h (by intro b hb; cases hb)⟩
  constructor
  · intro hok
    cases hv : mapGet (s.values p) key with
    | none => simp [Storage.Bool, Storage.Get, hv] at hok
    | some v =>
      cases v with
      | bool b => exact ⟨b, rfl⟩
      | int n => rw [hother _ hv (by intro b hb; cases hb)] at hok; cases hok
      | str x => rw [hother _ hv (by intro b hb; cases hb)] at hok; cases hok
      | other x => rw [hother _ hv (by intro b hb; cases hb)] at hok; cases hok
  · rintro ⟨b, hb⟩
    rw [hbool b hb]

/-! ## C16: an absent key -/

/-- C16. For every entry and every key absent from its `Values`, `Get` fails
with the error `not found`, and `Int`, `Str`, `Bool` and `Struct` (whatever the
destination and the JSON functions) fail with that same error, returning 0,
`""`, `false` and the destination as it was. For a present key `Get` returns the
stored value and `Str` its `fmt.Sprint` form, both without error; so `Get` and
`Str` fail exactly when the key is absent. -/
theorem absent_key_not_found (s : Session) (p : Nat) (key : String) :
    (mapGet (s.values p) key = none →
      Storage.Get s p key = (none, some ("'" ++ key ++ "' - not found")) ∧
      Storage.Int s p key = (0, some ("'" ++ key ++ "' - not found")) ∧
      Storage.Str s p key = ("", some ("'" ++ key ++ "' - not found")) ∧
      Storage.Bool s p key = (false, some ("'" ++ key ++ "' - not found")) ∧
      ∀ (δ : Type) (marshal : Value → Option String)
        (unmarshal : String → δ → δ × Option String) (i : δ),
        Storage.Struct marshal unmarshal s p key i
          = (i, some ("'" ++ key ++ "' - not found"))) ∧
    (∀ v, mapGet (s.values p) key = some v →
      Storage.Get s p key = (some v, none) ∧ Storage.Str s p key = (Sprint v, none)) ∧
    ((Storage.Get s p key).2 ≠ none ↔ mapGet (s.values p) key = none) ∧
    ((Storage.Str s p key).2 ≠ none ↔ mapGet (s.values p) key = none) := by
  refine ⟨?_, ?_, ?_, ?_⟩
  · intro h
    have hget := Storage_Get_of_none s p key h
    refine ⟨hget, ?_, ?_, ?_, ?_⟩
    · simp [Storage.Int, hget]
    · simp [Storage.Str, hget]
    · simp [Storage.Bool, hget]
    · intro δ marshal unmarshal i
      simp [Storage.Struct, hget]
  · intro v h
    have hget := Storage_Get_of_some s p key v h
    exact ⟨hget, by simp [Storage.Str, hget]⟩
  · cases h : mapGet (s.values p) key with
    | none => simp [Storage_Get_of_none s p key h]
    | some v => simp [Storage_Get_of_some s p key v h]
  · cases h : mapGet (s.values p) key with
    | none => simp [Storage.Str, Storage_Get_of_none s p key h]
    | some v => simp [Storage.Str, Storage_Get_of_some s p key v h]

/-! ## C17: `Set` overwrites -/

/-- C17. For every entry `p` of a registry whose storages refer to allocated
maps (as every registry reachable from `New` does), every key `k` and value
`v`: after `Set(k, v)`, `Get(k)` returns `(v, nil)` whatever was stored under `k`
before, and `Get(k')` of every other key returns what it returned before. -/
theorem Set_overwrites (s : Session) (p : Nat) (k : String) (v : Value)
    (hs : s.allocated) (hp : p < s.objs.length) :
    Storage.Get (Storage.Set s p k v) p k = (some v, none) ∧
    ∀ k', k' ≠ k → Storage.Get (Storage.Set s p k v) p k' = Storage.Get s p k' := by
  have hval := Storage_Set_values s p k v (allocated_handle s p hs hp)
  constructor
  · exact Storage_Get_of_some _ p k v (by rw [hval, mapGet_mapSet_self])
  · intro k' hk'
    unfold Storage.Get
    rw [hval, mapGet_mapSet_ne _ _ _ _ hk']

/-- C17 on a registry reached from `New`: the handler overwrites `INT = 3` of
the session at address 0 with the string `"x"`. -/
theorem Set_overwrites_witness :
    visited.allocated ∧ 0 < visited.objs.length ∧
    Storage.Get (Storage.Set visited 0 "INT" (.str "x")) 0 "INT" = (some (.str "x"), none) :=
  ⟨by decide, by decide, (Set_overwrites visited 0 "INT" (.str "x") (by decide) (by decide)).1⟩

/-! ## C18: `Delete` -/

/-- C18. For every entry and key `k`: after `Delete(k)`, `Get(k)` fails with
`not found` and `Get` of every other key returns what it returned before; when
`k` was absent, `Delete(k)` changes nothing at all. -/
theorem Delete_removes_key (s : Session) (p : Nat) (k : String) :
    Storage.Get (Storage.Delete s p k) p k = (none, some ("'" ++ k ++ "' - not found")) ∧
    (∀ k', k' ≠ k → Storage.Get (Storage.Delete s p k) p k' = Storage.Get s p k') ∧
    (mapGet (s.values p) k = none → Storage.Delete s p k = s) := by
  have hval := Storage_Delete_values s p k
  refine ⟨?_, ?_, ?_⟩
  · exact Storage_Get_of_none _ p k (by rw [hval, mapGet_mapDelete_self])
  · intro k' hk'
    unfold Storage.Get
    rw [hval, mapGet_mapDelete_ne _ _ _ hk']
  · intro h
    simp [Storage.Delete, h]

/-! ## C19: the id map and the list agree -/

/-- C19. Provided every id the generator produces is different from all ids in
the registry at that moment, in every state `s` reachable from `New` by `Start`,
`Destroy`, sweep and handler steps: the keys of the id map are exactly the ids
of the entries in the list, no two list entries share an id, the id of every
list entry is bound to that very entry, every binding of the id map points to a
list entry carrying that id, no key occurs twice, and there are as many keys as
list entries. -/
theorem map_list_consistent (s : Session) (name : String) (maxage keep : Int)
    (secure : Bool) (steps : List Step)
    (hs : s = run (New name maxage keep secure) steps)
    (hfresh : freshRun (New name maxage keep secure) steps) :
    (∀ k, k ∈ keyList s ↔ k ∈ idList s) ∧
    (idList s).Nodup ∧
    (∀ a ∈ s.list, mapGet s.data (s.storage a).ssid = some a) ∧
    (∀ k a, mapGet s.data k = some a → a ∈ s.list ∧ (s.storage a).ssid = k) ∧
    (keyList s).Nodup ∧
    (keyList s).length = s.list.length := by
  have hcons : s.consistent := by
    rw [hs]
    exact consistent_run steps _ (consistent_New name maxage keep secure) hfresh
  obtain ⟨hkeys, hlen⟩ := consistent_keys s hcons
  refine ⟨hkeys, hcons.2.1, hcons.2.2.2, ?_, hcons.2.2.1, hlen⟩
  intro k a hg
  obtain ⟨h1, -, h2⟩ := WF_addr_lt s hcons.1 k a hg
  exact ⟨h1, h2⟩

/-- C19 at the run `busyRun` (a rotation, a sweep pass that evicts, a second
client and its logout): one key and one list entry remain, for the same id. -/
theorem map_list_consistent_witness :
    freshRun (New "" 2 1 false) busyRun ∧
    keyList (run (New "" 2 1 false) busyRun) = [idB] ∧
    (keyList (run (New "" 2 1 false) busyRun)).length
      = (run (New "" 2 1 false) busyRun).list.length :=
  ⟨by decide, by decide,
    (map_list_consistent (run (New "" 2 1 false) busyRun) "" 2 1 false busyRun rfl
      (by decide)).2.2.2.2.2⟩

/-! ## C20: eviction and the 64-bit deadline -/

/-- C20 fails on the code. In `neverExpire` the entry at address 0 has a
non-negative `Access` (1700000000) and the max-age is non-negative
(`math.MaxInt64`); at the sweep time 1700000060 the sum `Access + maxage` as
mathematical integers is not below the sweep time, but the 64-bit sum
`accesstime` wraps to a negative number, and the pass removes the entry from
the list and from the id map. -/
theorem sweep_evicts_before_deadline :
    0 ≤ (neverExpire.storage 0).Access ∧ 0 ≤ neverExpire.maxage ∧
    neverExpire.list = [0] ∧
    ¬ ((neverExpire.storage 0).Access + neverExpire.maxage < 1700000060) ∧
    accesstime neverExpire 0 = -9223372035154775809 ∧
    0 ∉ (inspection neverExpire 1700000060).list ∧
    mapGet (inspection neverExpire 1700000060).data idA = none := by
  decide

end GoSession
